import Mathlib

/-!
Verification of the social-network graph layer of `SocialNetworks.py`.

The Python class `SocialNetwork` keeps its whole state in a Neo4j database;
every method is a thin wrapper around a handful of Cypher queries.  We embed
that state as a pair of lists: the `Person` nodes in creation order and the
directed `FRIEND` relationships in creation order.  Cypher `MATCH` row order
is not specified by Neo4j; the embedding determinizes it as insertion order,
which is the only place the model fixes something the database leaves open.
All operations of the source file are translated below; loops that Python
drives by a worklist are given an explicit fuel argument together with a
bound that (by the usual worklist measures) the loops never exhaust.
-/

set_option maxHeartbeats 1000000

namespace SocialNetworks

/-- The Neo4j database state behind the `SocialNetwork` class: `Person` nodes
and directed `FRIEND` edges, each in creation order. -/
structure SocialNetwork where
  nodes : List String
  edges : List (String × String)
deriving DecidableEq, Repr

/-- A freshly created, empty database. -/
def emptyNet : SocialNetwork := ⟨[], []⟩

/-- `MATCH (p:Person {name: $name})-[:FRIEND]->(f) RETURN f.name AS friend`:
the targets of the outgoing FRIEND edges of `n`, in edge order. -/
def neighbors (g : SocialNetwork) (n : String) : List String :=
  (g.edges.filter (fun e => decide (e.1 = n))).map Prod.snd

/-- `MERGE (a:Person {name: $x})`: create the node unless it already exists. -/
def mergeNode (g : SocialNetwork) (x : String) : SocialNetwork :=
  if x ∈ g.nodes then g else ⟨g.nodes ++ [x], g.edges⟩

/-- `MATCH (a:Person {name: $a}), (b:Person {name: $b}) MERGE (a)-[:FRIEND]->(b)`:
the relationship is created only when both endpoints are matched, and only if
it is not already present. -/
def mergeEdgeMatched (g : SocialNetwork) (a b : String) : SocialNetwork :=
  if a ∈ g.nodes ∧ b ∈ g.nodes then
    if (a, b) ∈ g.edges then g else ⟨g.nodes, g.edges ++ [(a, b)]⟩
  else g

/-- `_add_friend_transaction`: merge both person nodes, then merge the two
mirrored FRIEND relationships. -/
def add_friend (g : SocialNetwork) (person1 person2 : String) : SocialNetwork :=
  let g1 := mergeNode g person1
  let g2 := mergeNode g1 person2
  let g3 := mergeEdgeMatched g2 person1 person2
  mergeEdgeMatched g3 person2 person1

/-- `_remove_friend_transaction`: two `MATCH ... DELETE r` queries, one per
direction; each deletes every FRIEND relationship matching that direction. -/
def remove_friend (g : SocialNetwork) (person1 person2 : String) : SocialNetwork :=
  let g1 : SocialNetwork :=
    ⟨g.nodes, g.edges.filter (fun e => decide (¬ (e.1 = person1 ∧ e.2 = person2)))⟩
  ⟨g1.nodes, g1.edges.filter (fun e => decide (¬ (e.1 = person2 ∧ e.2 = person1)))⟩

/-- One `MATCH (n {name: $nombre}) DETACH DELETE n` query: remove every node
with that name together with all edges incident to it in either direction. -/
def deleteOne (g : SocialNetwork) (nombre : String) : SocialNetwork :=
  ⟨g.nodes.filter (fun n => decide (¬ n = nombre)),
   g.edges.filter (fun e => decide (¬ (e.1 = nombre ∨ e.2 = nombre)))⟩

/-- `delete_account`: iterate `DETACH DELETE` over the given names.  (The
Python method coerces a single string argument to a one-element list first;
the embedding takes the list form.) -/
def delete_account (g : SocialNetwork) (nombres_nodos : List String) : SocialNetwork :=
  nombres_nodos.foldl deleteOne g

/-- `all_accounts`: `MATCH (n) RETURN n.name` — the names of all nodes. -/
def all_accounts (g : SocialNetwork) : List String := g.nodes

/-- `add_graph_to_neo4j`: first phase merges a node per key of the adjacency
mapping; second phase runs, for every listed pair, the `MATCH`-both-endpoints
`MERGE`-relationship query (which silently does nothing when an endpoint node
does not exist).  The Python argument is a dict; the embedding takes its item
list in iteration order. -/
def add_graph_to_neo4j (g : SocialNetwork) (graph : List (String × List String)) :
    SocialNetwork :=
  let g1 := graph.foldl (fun h kv => mergeNode h kv.1) g
  graph.foldl (fun h kv => kv.2.foldl (fun h2 friend => mergeEdgeMatched h2 kv.1 friend) h) g1

/-- `_most_popular_friend_transaction`: one row `(p, out-degree of p)` per
person; empty graph gives `[]`; otherwise keep every row whose degree equals
the maximum.  (Python extracts the maximum via `max(..., key=...)`; since all
degrees are naturals, folding `Nat.max` from `0` yields the same value.) -/
def most_popular_friend (g : SocialNetwork) : List (String × Nat) :=
  let friends_count := g.nodes.map (fun p => (p, (neighbors g p).length))
  if friends_count = [] then []
  else
    let max_friends := (friends_count.map Prod.snd).foldl Nat.max 0
    friends_count.filter (fun r => decide (r.2 = max_friends))

/-- `_recommend_friends_transaction`: for every person (dict insertion order =
node order), collect over each friend `f` the set `friends(f) - friends(p) -
{p}`, concatenate, and deduplicate at the end.  Python's transient `set`s are
modelled by `List.dedup`; only membership in the final value is observable. -/
def recommend_friends (g : SocialNetwork) : List (String × List String) :=
  g.nodes.map (fun person =>
    let friends := (neighbors g person).dedup
    let recs := friends.foldl
      (fun acc friend =>
        acc ++ ((neighbors g friend).dedup.filter
          (fun x => decide (¬ x ∈ friends ∧ ¬ x = person)))) []
    (person, recs.dedup))

/-! ### Breadth-first shortest path (`_shortest_path_transaction`) -/

/-- Lookup in the `parent` dict (modelled as an association list with the most
recent binding in front; keys are bound at most once). -/
def plookup : List (String × String) → String → Option String
  | [], _ => none
  | e :: rest, k => if e.1 = k then some e.2 else plookup rest k

/-- The `while current in parent:` reconstruction loop, walking parent links.
Fuel `parent.length + 1` bounds it: under the BFS invariant every step moves
to a strictly earlier binding, so the chain is shorter than the dict. -/
def followParent (parent : List (String × String)) : Nat → String → List String
  | 0, _ => []
  | fuel + 1, current =>
    match plookup parent current with
    | some p => current :: followParent parent fuel p
    | none => []

/-- Path reconstruction of `_shortest_path_transaction`: append the chain of
parents, then `person1`, then reverse. -/
def reconstructPath (parent : List (String × String)) (person1 current : String) :
    List String :=
  (followParent parent (parent.length + 1) current ++ [person1]).reverse

/-- One neighbor step of the BFS loop: skip a visited friend, otherwise mark
it visited, record its parent and append it to the queue.  State is
`(visited, parent, queue)`. -/
def bfsStep (current : String) (acc : List String × List (String × String) × List String)
    (w : String) : List String × List (String × String) × List String :=
  if w ∈ acc.1 then acc else (w :: acc.1, (w, current) :: acc.2.1, acc.2.2 ++ [w])

/-- The `while queue:` loop of `_shortest_path_transaction`.  Fuel: every
iteration pops one element, and pushes are matched by newly visited edge
targets, so `edges.length + 2` iterations always suffice. -/
def bfsLoop (g : SocialNetwork) (person1 person2 : String) :
    Nat → List String → List String → List (String × String) → Option (List String)
  | 0, _, _, _ => none
  | _ + 1, [], _, _ => none
  | fuel + 1, current :: rest, visited, parent =>
    if current = person2 then some (reconstructPath parent person1 current)
    else
      let st := (neighbors g current).foldl (bfsStep current) (visited, parent, rest)
      bfsLoop g person1 person2 fuel st.2.2 st.1 st.2.1

/-- `_shortest_path_transaction`: BFS from `person1`, with `person1` visited
and queued at the start and an empty parent dict. -/
def shortest_path (g : SocialNetwork) (person1 person2 : String) : Option (List String) :=
  bfsLoop g person1 person2 (g.edges.length + 2) [person1] [person1] []

/-! ### Connected components (`_find_friend_groups_transaction`, `_dfs`, `_bfs`) -/

/-- One neighbor step shared by `_dfs` and `_bfs`: an unvisited friend is
marked visited and pushed — on top of the stack for DFS, at the back of the
queue for BFS.  State is `(worklist, visited)`. -/
def walkStep (dfs : Bool) (acc : List String × List String) (w : String) :
    List String × List String :=
  if w ∈ acc.2 then acc
  else (if dfs then w :: acc.1 else acc.1 ++ [w], w :: acc.2)

/-- The worklist loop shared by `_dfs` (stack: pop and push at the front) and
`_bfs` (queue: pop at the front, push at the back).  The Lean list's head is
the element Python pops next in both cases.  Returns the final visited set. -/
def walkLoop (g : SocialNetwork) (dfs : Bool) : Nat → List String → List String → List String
  | 0, _, visited => visited
  | _ + 1, [], visited => visited
  | fuel + 1, current :: rest, visited =>
    let st := (neighbors g current).foldl (walkStep dfs) (rest, visited)
    walkLoop g dfs fuel st.1 st.2

/-- Fuel bound for one `_dfs`/`_bfs` call: worklist length plus unvisited edge
targets decreases every iteration, and starts below this. -/
def walkFuel (g : SocialNetwork) : Nat := g.edges.length + g.nodes.length + 2

/-- `_find_friend_groups_transaction`: scan all nodes; each unvisited node
starts a new group and a full `_dfs`/`_bfs` walk (which first marks the start
node visited, then runs with the one-element worklist). -/
def find_friend_groups (g : SocialNetwork) (use_dfs : Bool) : Nat :=
  (g.nodes.foldl
    (fun (acc : List String × Nat) node =>
      if node ∈ acc.1 then acc
      else (walkLoop g use_dfs (walkFuel g) [node] (node :: acc.1), acc.2 + 1))
    ([], 0)).2

/-! ### Cycle detection (`_has_cycle_transaction`) -/

/-- Python's `path.index(n)`: index of the first occurrence. -/
def idxOfStr : List String → String → Nat
  | [], _ => 0
  | x :: xs, n => if x = n then 0 else idxOfStr xs n + 1

/-- `path[path.index(n):]` followed by `cycle.append(n)`. -/
def cycleOf (path : List String) (n : String) : List String :=
  path.drop (idxOfStr path n) ++ [n]

/-- The `for record in neighbors:` loop of `_has_cycle_transaction`: skip the
immediate parent; a neighbor that is visited and on `path` reports a cycle;
every other neighbor is pushed onto the stack (the accumulator is consed, so
the front of the result is the last push — the top of Python's stack). -/
def scanNbrs (current : String) (par : Option String) (path visited : List String) :
    List String → List (String × Option String) →
    Sum (List String) (List (String × Option String))
  | [], acc => Sum.inr acc
  | n :: rest, acc =>
    if some n = par then scanNbrs current par path visited rest acc
    else if n ∈ visited ∧ n ∈ path then Sum.inl (cycleOf path n)
    else scanNbrs current par path visited rest ((n, some current) :: acc)

/-- The per-component `while stack:` loop of `_has_cycle_transaction`.  Note
the faithful translation of the source's `path` handling: a node is appended
when first visited and `path` is never popped inside the loop (the single
`path.pop()` after the loop touches a variable that is then discarded).
Returns either a detected cycle or the final visited set. -/
def cycleComp (g : SocialNetwork) :
    Nat → List (String × Option String) → List String → List String →
    Sum (List String) (List String)
  | 0, _, _, visited => Sum.inr visited
  | _ + 1, [], _, visited => Sum.inr visited
  | fuel + 1, (current, par) :: stack, path, visited =>
    if current ∈ visited then
      if current ∈ path then Sum.inl (cycleOf path current)
      else cycleComp g fuel stack path visited
    else
      let visited1 := current :: visited
      let path1 := path ++ [current]
      match scanNbrs current par path1 visited1 (neighbors g current) [] with
      | Sum.inl cyc => Sum.inl cyc
      | Sum.inr pushes => cycleComp g fuel (pushes ++ stack) path1 visited1

/-- Fuel bound for one component scan: generous product bound on pops. -/
def cycleFuel (g : SocialNetwork) : Nat :=
  (g.nodes.length + g.edges.length + 2) * (g.edges.length + 2)

/-- `_has_cycle_transaction`: run the component DFS from every unvisited node
in order; the first detected cycle is returned (Python returns immediately;
the fold freezes its state once a cycle is found), else `none`. -/
def has_cycle (g : SocialNetwork) : Option (List String) :=
  (g.nodes.foldl
    (fun (acc : Option (List String) × List String) person =>
      match acc with
      | (some cyc, visited) => (some cyc, visited)
      | (none, visited) =>
        if person ∈ visited then (none, visited)
        else
          match cycleComp g (cycleFuel g) [(person, none)] [] visited with
          | Sum.inl cyc => (some cyc, visited)
          | Sum.inr visited1 => (none, visited1))
    (none, [])).1

/-! ## Basic lemmas about the store operations -/

theorem mem_neighbors {g : SocialNetwork} {n w : String} :
    w ∈ neighbors g n ↔ (n, w) ∈ g.edges := by
  simp only [neighbors, List.mem_map, List.mem_filter, decide_eq_true_eq]
  constructor
  · rintro ⟨⟨x, y⟩, ⟨he, h1⟩, h2⟩
    cases h1; cases h2; exact he
  · intro h
    exact ⟨(n, w), ⟨h, rfl⟩, rfl⟩

theorem mergeNode_edges (g : SocialNetwork) (x : String) :
    (mergeNode g x).edges = g.edges := by
  unfold mergeNode; split <;> rfl

theorem mem_mergeNode_nodes {g : SocialNetwork} {x y : String} :
    y ∈ (mergeNode g x).nodes ↔ y ∈ g.nodes ∨ y = x := by
  unfold mergeNode
  split
  · rename_i h
    simp only [iff_self_or]
    rintro rfl; exact h
  · simp [List.mem_append]

theorem mergeNode_eq_self {g : SocialNetwork} {x : String} (h : x ∈ g.nodes) :
    mergeNode g x = g := by
  unfold mergeNode; simp [h]

theorem mergeEdgeMatched_nodes (g : SocialNetwork) (a b : String) :
    (mergeEdgeMatched g a b).nodes = g.nodes := by
  unfold mergeEdgeMatched; split <;> [skip; rfl]; split <;> rfl

theorem mem_mergeEdgeMatched_edges {g : SocialNetwork} {a b : String} {e : String × String} :
    e ∈ (mergeEdgeMatched g a b).edges ↔
      e ∈ g.edges ∨ (e = (a, b) ∧ a ∈ g.nodes ∧ b ∈ g.nodes) := by
  unfold mergeEdgeMatched
  split
  · rename_i hn
    split
    · rename_i he
      constructor
      · exact fun h => Or.inl h
      · rintro (h | ⟨rfl, -⟩)
        · exact h
        · exact he
    · simp only [List.mem_append, List.mem_singleton]
      constructor
      · rintro (h | rfl)
        · exact Or.inl h
        · exact Or.inr ⟨rfl, hn⟩
      · rintro (h | ⟨rfl, -⟩)
        · exact Or.inl h
        · exact Or.inr rfl
  · rename_i hn
    constructor
    · exact fun h => Or.inl h
    · rintro (h | ⟨rfl, hn'⟩)
      · exact h
      · exact absurd hn' hn

theorem mergeEdgeMatched_eq_self {g : SocialNetwork} {a b : String}
    (h : (a, b) ∈ g.edges) : mergeEdgeMatched g a b = g := by
  unfold mergeEdgeMatched
  split
  · simp [h]
  · rfl

theorem add_friend_nodes_mem {g : SocialNetwork} {a b x : String} :
    x ∈ (add_friend g a b).nodes ↔ x ∈ g.nodes ∨ x = a ∨ x = b := by
  show x ∈ (mergeEdgeMatched _ b a).nodes ↔ _
  rw [mergeEdgeMatched_nodes, mergeEdgeMatched_nodes, mem_mergeNode_nodes,
    mem_mergeNode_nodes]
  tauto

theorem add_friend_mem_edges {g : SocialNetwork} {a b : String} {e : String × String} :
    e ∈ (add_friend g a b).edges ↔ e ∈ g.edges ∨ e = (a, b) ∨ e = (b, a) := by
  have ha : a ∈ (mergeNode (mergeNode g a) b).nodes := by
    rw [mem_mergeNode_nodes, mem_mergeNode_nodes]; tauto
  have hb : b ∈ (mergeNode (mergeNode g a) b).nodes := by
    rw [mem_mergeNode_nodes]; tauto
  show e ∈ (mergeEdgeMatched (mergeEdgeMatched (mergeNode (mergeNode g a) b) a b) b a).edges ↔ _
  rw [mem_mergeEdgeMatched_edges, mergeEdgeMatched_nodes, mem_mergeEdgeMatched_edges,
    mergeNode_edges, mergeNode_edges]
  tauto

theorem add_friend_idem (g : SocialNetwork) (a b : String) :
    add_friend (add_friend g a b) a b = add_friend g a b := by
  have hab : (a, b) ∈ (add_friend g a b).edges :=
    add_friend_mem_edges.mpr (Or.inr (Or.inl rfl))
  have hba : (b, a) ∈ (add_friend g a b).edges :=
    add_friend_mem_edges.mpr (Or.inr (Or.inr rfl))
  have ha : a ∈ (add_friend g a b).nodes :=
    add_friend_nodes_mem.mpr (Or.inr (Or.inl rfl))
  have hb : b ∈ (add_friend g a b).nodes :=
    add_friend_nodes_mem.mpr (Or.inr (Or.inr rfl))
  show mergeEdgeMatched (mergeEdgeMatched (mergeNode (mergeNode _ a) b) a b) b a = _
  rw [mergeNode_eq_self ha, mergeNode_eq_self hb, mergeEdgeMatched_eq_self hab,
    mergeEdgeMatched_eq_self hba]

theorem remove_friend_mem_edges {g : SocialNetwork} {a b : String} {e : String × String} :
    e ∈ (remove_friend g a b).edges ↔
      e ∈ g.edges ∧ ¬ e = (a, b) ∧ ¬ e = (b, a) := by
  show e ∈ List.filter _ (List.filter _ g.edges) ↔ _
  simp only [List.mem_filter, decide_eq_true_eq, Prod.ext_iff]
  tauto

theorem remove_friend_noop {g : SocialNetwork} {a b : String}
    (hab : ¬ (a, b) ∈ g.edges) (hba : ¬ (b, a) ∈ g.edges) :
    remove_friend g a b = g := by
  have h1 : g.edges.filter (fun e => decide (¬ (e.1 = a ∧ e.2 = b))) = g.edges := by
    rw [List.filter_eq_self]
    intro e he
    simp only [decide_eq_true_eq]
    rintro ⟨h1, h2⟩
    exact hab ((Prod.ext h1 h2 : e = (a, b)) ▸ he)
  have h2 : g.edges.filter (fun e => decide (¬ (e.1 = b ∧ e.2 = a))) = g.edges := by
    rw [List.filter_eq_self]
    intro e he
    simp only [decide_eq_true_eq]
    rintro ⟨h1, h2⟩
    exact hba ((Prod.ext h1 h2 : e = (b, a)) ▸ he)
  show (⟨g.nodes,
    (g.edges.filter (fun e => decide (¬ (e.1 = a ∧ e.2 = b)))).filter
      (fun e => decide (¬ (e.1 = b ∧ e.2 = a)))⟩ : SocialNetwork) = g
  rw [h1, h2]

/-- Claim C6: after `add_friend a b`, nodes `a` and `b` exist, each is a
neighbor of the other, and a second `add_friend a b` changes nothing; after
`remove_friend a b` neither direction remains a neighbor, and removing an
absent friendship is a no-op. -/
theorem claim_C6_add_remove_mirrored (g : SocialNetwork) (a b : String) :
    a ∈ (add_friend g a b).nodes ∧ b ∈ (add_friend g a b).nodes ∧
    b ∈ neighbors (add_friend g a b) a ∧ a ∈ neighbors (add_friend g a b) b ∧
    add_friend (add_friend g a b) a b = add_friend g a b ∧
    ¬ b ∈ neighbors (remove_friend g a b) a ∧ ¬ a ∈ neighbors (remove_friend g a b) b ∧
    (¬ (a, b) ∈ g.edges → ¬ (b, a) ∈ g.edges → remove_friend g a b = g) := by
  refine ⟨?_, ?_, ?_, ?_, add_friend_idem g a b, ?_, ?_, fun h1 h2 => remove_friend_noop h1 h2⟩
  · exact add_friend_nodes_mem.mpr (Or.inr (Or.inl rfl))
  · exact add_friend_nodes_mem.mpr (Or.inr (Or.inr rfl))
  · exact mem_neighbors.mpr (add_friend_mem_edges.mpr (Or.inr (Or.inl rfl)))
  · exact mem_neighbors.mpr (add_friend_mem_edges.mpr (Or.inr (Or.inr rfl)))
  · intro h
    exact (remove_friend_mem_edges.mp (mem_neighbors.mp h)).2.1 rfl
  · intro h
    exact (remove_friend_mem_edges.mp (mem_neighbors.mp h)).2.2 rfl

/-- Witness for C6 at a concrete instance, discharging the no-op hypotheses. -/
theorem claim_C6_witness :
    remove_friend emptyNet "A" "B" = emptyNet ∧
    "B" ∈ neighbors (add_friend emptyNet "A" "B") "A" := by
  have h := claim_C6_add_remove_mirrored emptyNet "A" "B"
  exact ⟨h.2.2.2.2.2.2.2 (by decide) (by decide), h.2.2.1⟩

/-! ## Concrete graphs used as test inputs -/

/-- Cycle A–C–D–A with pendant node B attached to A (insertion order matters). -/
def gC1 : SocialNetwork :=
  add_friend (add_friend (add_friend (add_friend emptyNet "A" "C") "C" "D") "D" "A") "A" "B"

/-- Path graph A–B–C–D. -/
def gPath : SocialNetwork :=
  add_friend (add_friend (add_friend emptyNet "A" "B") "B" "C") "C" "D"

/-- Triangle A–B–C. -/
def gTri : SocialNetwork :=
  add_friend (add_friend (add_friend emptyNet "A" "B") "B" "C") "C" "A"

/-! ## C1: cycle detection -/

/-- Claim C1 fails on the code: on the graph with friendships A–C, C–D, D–A
and A–B (a triangle A–C–D plus the pendant node B), `_has_cycle_transaction`
returns the sequence A, B, D, C, A, whose consecutive pair (B, D) is joined
by no FRIEND edge in either direction — the `path` list is never popped when
a branch (here the pendant B) dead-ends, so it is not the DFS recursion path
the algorithm needs. -/
theorem claim_C1_code_bug :
    has_cycle gC1 = some ["A", "B", "D", "C", "A"] ∧
    ¬ ("B", "D") ∈ gC1.edges ∧ ¬ ("D", "B") ∈ gC1.edges := by decide

/-! ## C9: delete_account -/

theorem mem_deleteOne_nodes {g : SocialNetwork} {m x : String} :
    x ∈ (deleteOne g m).nodes ↔ x ∈ g.nodes ∧ ¬ x = m := by
  simp [deleteOne, List.mem_filter]

theorem mem_deleteOne_edges {g : SocialNetwork} {m : String} {e : String × String} :
    e ∈ (deleteOne g m).edges ↔ e ∈ g.edges ∧ ¬ e.1 = m ∧ ¬ e.2 = m := by
  simp only [deleteOne, List.mem_filter, decide_eq_true_eq]
  tauto

theorem delete_account_cons (g : SocialNetwork) (n : String) (rest : List String) :
    delete_account g (n :: rest) = delete_account (deleteOne g n) rest := rfl

theorem delete_account_nodes_sub :
    ∀ (names : List String) (g : SocialNetwork) (x : String),
      x ∈ (delete_account g names).nodes → x ∈ g.nodes := by
  intro names
  induction names with
  | nil => exact fun g x h => h
  | cons n rest ih =>
    intro g x h
    exact (mem_deleteOne_nodes.mp (ih (deleteOne g n) x h)).1

theorem delete_account_edges_sub :
    ∀ (names : List String) (g : SocialNetwork) (e : String × String),
      e ∈ (delete_account g names).edges → e ∈ g.edges := by
  intro names
  induction names with
  | nil => exact fun g e h => h
  | cons n rest ih =>
    intro g e h
    exact (mem_deleteOne_edges.mp (ih (deleteOne g n) e h)).1

theorem delete_account_spec :
    ∀ (names : List String) (g : SocialNetwork) (x : String), x ∈ names →
      (¬ x ∈ (delete_account g names).nodes) ∧
      ∀ e, e ∈ (delete_account g names).edges → ¬ e.1 = x ∧ ¬ e.2 = x := by
  intro names
  induction names with
  | nil => intro g x hx; exact absurd hx (List.not_mem_nil x)
  | cons n rest ih =>
    intro g x hx
    rcases List.mem_cons.mp hx with rfl | hx'
    · constructor
      · intro hmem
        rw [delete_account_cons] at hmem
        exact (mem_deleteOne_nodes.mp
          (delete_account_nodes_sub rest (deleteOne g x) x hmem)).2 rfl
      · intro e he
        rw [delete_account_cons] at he
        have h2 := (mem_deleteOne_edges.mp
          (delete_account_edges_sub rest (deleteOne g x) e he)).2
        exact h2
    · rw [delete_account_cons]
      exact ih (deleteOne g n) x hx'

/-- Claim C9: deleting accounts removes each named node from `all_accounts`
and from every node's `neighbors` list. -/
theorem claim_C9_delete_account (g : SocialNetwork) (names : List String)
    (x : String) (hx : x ∈ names) :
    ¬ x ∈ all_accounts (delete_account g names) ∧
    ∀ y, ¬ x ∈ neighbors (delete_account g names) y := by
  obtain ⟨h1, h2⟩ := delete_account_spec names g x hx
  refine ⟨h1, fun y hy => ?_⟩
  exact (h2 (y, x) (mem_neighbors.mp hy)).2 rfl

/-- Witness for C9: deleting B from the path graph A–B–C–D. -/
theorem claim_C9_witness :
    ¬ "B" ∈ all_accounts (delete_account gPath ["B"]) ∧
    ¬ "B" ∈ neighbors (delete_account gPath ["B"]) "A" := by
  have h := claim_C9_delete_account gPath ["B"] "B" (by decide)
  exact ⟨h.1, h.2 "A"⟩

/-! ## C10: shortest path from a node to itself -/

/-- Claim C10: for every name `a`, whether or not `a` is a node of the graph,
`shortest_path a a` returns the single-element path `[a]`: the BFS dequeues
`a` first, immediately matches the target and reconstructs from the empty
parent dict. -/
theorem claim_C10_self_path (g : SocialNetwork) (a : String) :
    shortest_path g a a = some [a] := by
  show bfsLoop g a a (g.edges.length + 1 + 1) [a] [a] [] = some [a]
  simp [bfsLoop, reconstructPath, followParent, plookup]

/-! ## C2: bulk graph import -/

theorem foldl_mergeNode_nodes :
    ∀ (adj : List (String × List String)) (g : SocialNetwork) (x : String),
      x ∈ (adj.foldl (fun h kv => mergeNode h kv.1) g).nodes ↔
        x ∈ g.nodes ∨ x ∈ adj.map Prod.fst := by
  intro adj
  induction adj with
  | nil => simp
  | cons kv rest ih =>
    intro g x
    simp only [List.foldl_cons, ih, mem_mergeNode_nodes, List.map_cons, List.mem_cons]
    tauto

theorem foldl_mergeNode_edges :
    ∀ (adj : List (String × List String)) (g : SocialNetwork),
      (adj.foldl (fun h kv => mergeNode h kv.1) g).edges = g.edges := by
  intro adj
  induction adj with
  | nil => intro g; rfl
  | cons kv rest ih =>
    intro g
    rw [List.foldl_cons, ih, mergeNode_edges]

theorem foldl_mergeEdge_nodes :
    ∀ (frs : List String) (h : SocialNetwork) (k : String),
      (frs.foldl (fun h2 fr => mergeEdgeMatched h2 k fr) h).nodes = h.nodes := by
  intro frs
  induction frs with
  | nil => intro h k; rfl
  | cons fr rest ih =>
    intro h k
    rw [List.foldl_cons, ih, mergeEdgeMatched_nodes]

theorem foldl_mergeEdge_mem :
    ∀ (frs : List String) (h : SocialNetwork) (k : String) (e : String × String),
      e ∈ (frs.foldl (fun h2 fr => mergeEdgeMatched h2 k fr) h).edges ↔
        e ∈ h.edges ∨ (e.1 = k ∧ e.2 ∈ frs ∧ e.1 ∈ h.nodes ∧ e.2 ∈ h.nodes) := by
  intro frs
  induction frs with
  | nil => intro h k e; simp
  | cons fr rest ih =>
    intro h k e
    rw [List.foldl_cons, ih, mem_mergeEdgeMatched_edges, mergeEdgeMatched_nodes]
    constructor
    · rintro ((he | ⟨rfl, hk, hf⟩) | ⟨h1, h2, h3, h4⟩)
      · exact Or.inl he
      · exact Or.inr ⟨rfl, List.mem_cons_self _ _, hk, hf⟩
      · exact Or.inr ⟨h1, List.mem_cons_of_mem _ h2, h3, h4⟩
    · rintro (he | ⟨h1, h2, h3, h4⟩)
      · exact Or.inl (Or.inl he)
      · rcases List.mem_cons.mp h2 with h2' | h2'
        · refine Or.inl (Or.inr ?_)
          have : e = (k, fr) := Prod.ext h1 h2'
          rw [this] at h3 h4 ⊢
          exact ⟨rfl, h3, h4⟩
        · exact Or.inr ⟨h1, h2', h3, h4⟩

theorem phase2_nodes :
    ∀ (adj : List (String × List String)) (h : SocialNetwork),
      (adj.foldl (fun acc kv => kv.2.foldl
        (fun h2 fr => mergeEdgeMatched h2 kv.1 fr) acc) h).nodes = h.nodes := by
  intro adj
  induction adj with
  | nil => intro h; rfl
  | cons kv rest ih =>
    intro h
    rw [List.foldl_cons, ih, foldl_mergeEdge_nodes]

theorem phase2_mem :
    ∀ (adj : List (String × List String)) (h : SocialNetwork) (e : String × String),
      e ∈ (adj.foldl (fun acc kv => kv.2.foldl
          (fun h2 fr => mergeEdgeMatched h2 kv.1 fr) acc) h).edges ↔
        e ∈ h.edges ∨
          ∃ kv ∈ adj, e.1 = kv.1 ∧ e.2 ∈ kv.2 ∧ e.1 ∈ h.nodes ∧ e.2 ∈ h.nodes := by
  intro adj
  induction adj with
  | nil => intro h e; simp
  | cons kv rest ih =>
    intro h e
    rw [List.foldl_cons, ih, foldl_mergeEdge_mem, foldl_mergeEdge_nodes]
    constructor
    · rintro ((he | hkv) | ⟨kv', hkv', h1, h2, h3, h4⟩)
      · exact Or.inl he
      · exact Or.inr ⟨kv, List.mem_cons_self _ _, hkv⟩
      · exact Or.inr ⟨kv', List.mem_cons_of_mem _ hkv', h1, h2, h3, h4⟩
    · rintro (he | ⟨kv', hkv', h1, h2, h3, h4⟩)
      · exact Or.inl (Or.inl he)
      · rcases List.mem_cons.mp hkv' with rfl | hkv''
        · exact Or.inl (Or.inr ⟨h1, h2, h3, h4⟩)
        · exact Or.inr ⟨kv', hkv'', h1, h2, h3, h4⟩

/-- Counterexample to claim C2 as stated: importing the one-entry adjacency
mapping A ↦ [B] (where B is not a key) creates neither the edge A→B nor the
edge B→A, and does not create node B — the second phase matches endpoints,
it does not merge them. -/
theorem claim_C2_counterexample :
    ¬ ("A", "B") ∈ (add_graph_to_neo4j emptyNet [("A", ["B"])]).edges ∧
    ¬ ("B", "A") ∈ (add_graph_to_neo4j emptyNet [("A", ["B"])]).edges ∧
    ¬ "B" ∈ (add_graph_to_neo4j emptyNet [("A", ["B"])]).nodes := by decide

/-- Claim C2 (amended): the import first creates a node per key of the
mapping; afterwards the directed edge a→b exists exactly when it already
existed or the mapping lists b under a and both endpoints exist as nodes
(pre-existing or keys).  In particular edges whose target is not a node are
silently skipped, and the mirror b→a is created only when listed itself. -/
theorem claim_C2_import_characterization (g : SocialNetwork)
    (adj : List (String × List String)) :
    (∀ x, x ∈ (add_graph_to_neo4j g adj).nodes ↔
      x ∈ g.nodes ∨ x ∈ adj.map Prod.fst) ∧
    (∀ a b, (a, b) ∈ (add_graph_to_neo4j g adj).edges ↔
      (a, b) ∈ g.edges ∨
        ((∃ kv ∈ adj, a = kv.1 ∧ b ∈ kv.2) ∧
          (a ∈ g.nodes ∨ a ∈ adj.map Prod.fst) ∧
          (b ∈ g.nodes ∨ b ∈ adj.map Prod.fst))) := by
  constructor
  · intro x
    show x ∈ (List.foldl _ (adj.foldl (fun h kv => mergeNode h kv.1) g) adj).nodes ↔ _
    rw [phase2_nodes, foldl_mergeNode_nodes]
  · intro a b
    show (a, b) ∈ (List.foldl _ (adj.foldl (fun h kv => mergeNode h kv.1) g) adj).edges ↔ _
    rw [phase2_mem, foldl_mergeNode_edges]
    constructor
    · rintro (he | ⟨kv, hkv, h1, h2, h3, h4⟩)
      · exact Or.inl he
      · rw [foldl_mergeNode_nodes] at h3 h4
        exact Or.inr ⟨⟨kv, hkv, h1, h2⟩, h3, h4⟩
    · rintro (he | ⟨⟨kv, hkv, h1, h2⟩, h3, h4⟩)
      · exact Or.inl he
      · rw [← foldl_mergeNode_nodes adj g] at h3 h4
        exact Or.inr ⟨kv, hkv, h1, h2, h3, h4⟩

/-! ## C8: most popular friends -/

theorem init_le_foldl_max :
    ∀ (l : List Nat) (init : Nat), init ≤ l.foldl Nat.max init := by
  intro l
  induction l with
  | nil => intro init; exact Nat.le_refl init
  | cons x xs ih =>
    intro init
    exact Nat.le_trans (Nat.le_max_left init x) (ih (Nat.max init x))

theorem mem_le_foldl_max :
    ∀ (l : List Nat) (init x : Nat), x ∈ l → x ≤ l.foldl Nat.max init := by
  intro l
  induction l with
  | nil => intro init x hx; exact absurd hx (List.not_mem_nil x)
  | cons y ys ih =>
    intro init x hx
    rcases List.mem_cons.mp hx with rfl | hx'
    · exact Nat.le_trans (Nat.le_max_right init x) (init_le_foldl_max ys (Nat.max init x))
    · exact ih (Nat.max init y) x hx'

theorem foldl_max_mem :
    ∀ (l : List Nat) (init : Nat), l.foldl Nat.max init = init ∨ l.foldl Nat.max init ∈ l := by
  intro l
  induction l with
  | nil => intro init; exact Or.inl rfl
  | cons x xs ih =>
    intro init
    rcases ih (Nat.max init x) with h | h
    · rw [List.foldl_cons, h]
      rcases Nat.le_total init x with h' | h'
      · have hx : Nat.max init x = x := Nat.max_eq_right h'
        rw [hx]
        exact Or.inr (List.mem_cons_self x xs)
      · have hx : Nat.max init x = init := Nat.max_eq_left h'
        rw [hx]
        exact Or.inl rfl
    · exact Or.inr (List.mem_cons_of_mem x h)

/-- Claim C8: `most_popular_friend` returns the empty list on an empty graph,
and otherwise contains exactly the pairs (node, out-degree) of the nodes
whose out-degree is maximal — every tied node is kept. -/
theorem claim_C8_most_popular (g : SocialNetwork) :
    (g.nodes = [] → most_popular_friend g = []) ∧
    (∀ x d, (x, d) ∈ most_popular_friend g ↔
      (x ∈ g.nodes ∧ d = (neighbors g x).length ∧
        ∀ y ∈ g.nodes, (neighbors g y).length ≤ (neighbors g x).length)) := by
  have hfc : ∀ x d, (x, d) ∈ g.nodes.map (fun p => (p, (neighbors g p).length)) ↔
      x ∈ g.nodes ∧ d = (neighbors g x).length := by
    intro x d
    constructor
    · intro h
      obtain ⟨y, hy, hyx⟩ := List.mem_map.mp h
      rw [Prod.mk.injEq] at hyx
      obtain ⟨rfl, hd⟩ := hyx
      exact ⟨hy, hd.symm⟩
    · rintro ⟨hx, rfl⟩
      exact List.mem_map.mpr ⟨x, hx, rfl⟩
  constructor
  · intro h; simp [most_popular_friend, h]
  · intro x d
    unfold most_popular_friend
    by_cases hnil : g.nodes.map (fun p => (p, (neighbors g p).length)) = []
    · rw [if_pos hnil]
      have hn : g.nodes = [] := List.map_eq_nil_iff.mp hnil
      simp [hn]
    · rw [if_neg hnil]
      have hdegs : (g.nodes.map (fun p => (p, (neighbors g p).length))).map Prod.snd =
          g.nodes.map (fun p => (neighbors g p).length) := by
        rw [List.map_map]; rfl
      rw [List.mem_filter, hdegs]
      simp only [decide_eq_true_eq]
      rw [hfc]
      constructor
      · rintro ⟨⟨hy, rfl⟩, hd⟩
        refine ⟨hy, rfl, fun z hz => ?_⟩
        have hle := mem_le_foldl_max (g.nodes.map (fun p => (neighbors g p).length)) 0
          (neighbors g z).length (List.mem_map.mpr ⟨z, hz, rfl⟩)
        have hd' : (neighbors g x).length =
            (g.nodes.map (fun p => (neighbors g p).length)).foldl Nat.max 0 := hd
        omega
      · rintro ⟨hx, rfl, hmax⟩
        refine ⟨⟨hx, rfl⟩, ?_⟩
        have hle : (neighbors g x).length ≤
            (g.nodes.map (fun p => (neighbors g p).length)).foldl Nat.max 0 :=
          mem_le_foldl_max _ 0 _ (List.mem_map.mpr ⟨x, hx, rfl⟩)
        rcases foldl_max_mem (g.nodes.map (fun p => (neighbors g p).length)) 0 with h0 | hm
        · show (neighbors g x).length = _
          omega
        · obtain ⟨z, hz, hzd⟩ := List.mem_map.mp hm
          have hzx := hmax z hz
          show (neighbors g x).length = _
          omega

/-- Witness for C8: empty graph gives the empty list; in the triangle every
node has the maximal degree 2. -/
theorem claim_C8_witness :
    most_popular_friend emptyNet = [] ∧ ("A", 2) ∈ most_popular_friend gTri := by
  refine ⟨(claim_C8_most_popular emptyNet).1 rfl, ?_⟩
  exact ((claim_C8_most_popular gTri).2 "A" 2).mpr (by decide)

/-! ## C7: friend recommendations -/

theorem mem_foldl_append :
    ∀ (l : List String) (body : String → List String) (init : List String) (x : String),
      x ∈ l.foldl (fun acc f => acc ++ body f) init ↔
        x ∈ init ∨ ∃ f ∈ l, x ∈ body f := by
  intro l body
  induction l with
  | nil => intro init x; simp
  | cons f rest ih =>
    intro init x
    rw [List.foldl_cons, ih]
    simp only [List.mem_append, List.mem_cons]
    constructor
    · rintro ((hx | hx) | ⟨f', hf', hx⟩)
      · exact Or.inl hx
      · exact Or.inr ⟨f, Or.inl rfl, hx⟩
      · exact Or.inr ⟨f', Or.inr hf', hx⟩
    · rintro (hx | ⟨f', hf' | hf', hx⟩)
      · exact Or.inl (Or.inl hx)
      · exact Or.inl (Or.inr (hf' ▸ hx))
      · exact Or.inr ⟨f', hf', hx⟩

/-- Claim C7: every node of the graph has an entry in `recommend_friends`,
and for every entry (p, rl) the list rl contains exactly the
friends-of-friends of p that are neither p itself nor friends of p; in
particular p and its friends never appear, and the list is deduplicated. -/
theorem claim_C7_recommend (g : SocialNetwork) :
    (∀ p, p ∈ g.nodes → ∃ rl, (p, rl) ∈ recommend_friends g) ∧
    ∀ p rl, (p, rl) ∈ recommend_friends g →
      (∀ x, x ∈ rl ↔ ∃ f, f ∈ neighbors g p ∧ x ∈ neighbors g f ∧
          ¬ x ∈ neighbors g p ∧ ¬ x = p) ∧
      ¬ p ∈ rl ∧ (∀ x, x ∈ neighbors g p → ¬ x ∈ rl) ∧ rl.Nodup := by
  constructor
  · intro p hp
    exact ⟨_, List.mem_map.mpr ⟨p, hp, rfl⟩⟩
  intro p rl h
  obtain ⟨q, hq, heq⟩ := List.mem_map.mp h
  rw [Prod.mk.injEq] at heq
  obtain ⟨rfl, hrl⟩ := heq
  have hchar : ∀ x, x ∈ rl ↔ ∃ f, f ∈ neighbors g q ∧ x ∈ neighbors g f ∧
      ¬ x ∈ neighbors g q ∧ ¬ x = q := by
    intro x
    rw [← hrl, List.mem_dedup, mem_foldl_append]
    simp only [List.not_mem_nil, false_or, List.mem_filter, List.mem_dedup,
      decide_eq_true_eq]
  refine ⟨hchar, ?_, ?_, ?_⟩
  · intro hp
    exact ((hchar q).mp hp).choose_spec.2.2.2 rfl
  · intro x hx hmem
    exact ((hchar x).mp hmem).choose_spec.2.2.1 hx
  · rw [← hrl]; exact List.nodup_dedup _

/-- Witness for C7 on the path graph A–B–C–D: A's recommendations are exactly
the two-hop node C. -/
theorem claim_C7_witness :
    ("A", ["C"]) ∈ recommend_friends gPath ∧ ¬ "A" ∈ (["C"] : List String) := by
  refine ⟨by decide, ?_⟩
  exact ((claim_C7_recommend gPath).2 "A" ["C"] (by decide)).2.1

/-! ## C5: DFS and BFS count the same friend groups

Both `_dfs` and `_bfs` are worklist algorithms that mark a node visited when
it is pushed; we show each computes the same final visited set — the old set
plus everything reachable from the start while avoiding the old set — so the
component counter cannot tell them apart. -/

/-- Number of edge targets not yet visited; together with the worklist length
this is the strictly decreasing measure of the walk loops. -/
def unvisCount (g : SocialNetwork) (V : List String) : Nat :=
  ((g.edges.map Prod.snd).dedup.filter (fun t => decide (¬ t ∈ V))).length

theorem neighbors_mem_targets {g : SocialNetwork} {c w : String}
    (h : w ∈ neighbors g c) : w ∈ g.edges.map Prod.snd :=
  List.mem_map.mpr ⟨(c, w), mem_neighbors.mp h, rfl⟩

theorem length_filter_notmem_cons :
    ∀ (l : List String) (w : String) (V : List String), l.Nodup → w ∈ l → ¬ w ∈ V →
      (l.filter (fun t => decide (¬ t ∈ w :: V))).length + 1 =
        (l.filter (fun t => decide (¬ t ∈ V))).length := by
  intro l
  induction l with
  | nil => intro w V _ hw; exact absurd hw (List.not_mem_nil w)
  | cons x xs ih =>
    intro w V hnd hw hwV
    have hx_nin : ¬ x ∈ xs := (List.nodup_cons.mp hnd).1
    have hnd' : xs.Nodup := (List.nodup_cons.mp hnd).2
    by_cases hxw : x = w
    · subst hxw
      have hcongr : xs.filter (fun t => decide (¬ t ∈ x :: V)) =
          xs.filter (fun t => decide (¬ t ∈ V)) := by
        apply List.filter_congr
        intro t ht
        have htx : ¬ t = x := fun h => hx_nin (h ▸ ht)
        simp [List.mem_cons, htx]
      have c1 : (decide (¬ x ∈ x :: V)) = false := by simp
      have c2 : (decide (¬ x ∈ V)) = true := by simp [hwV]
      rw [List.filter_cons, List.filter_cons, c1, c2, hcongr]
      simp
    · have hw' : w ∈ xs := by
        rcases List.mem_cons.mp hw with h | h
        · exact absurd h.symm hxw
        · exact h
      have hrec := ih w V hnd' hw' hwV
      by_cases hx : x ∈ V
      · have c1 : (decide (¬ x ∈ w :: V)) = false := by simp [List.mem_cons, hx]
        have c2 : (decide (¬ x ∈ V)) = false := by simp [hx]
        rw [List.filter_cons, List.filter_cons, c1, c2]
        simpa using hrec
      · have c1 : (decide (¬ x ∈ w :: V)) = true := by simp [List.mem_cons, hx, hxw]
        have c2 : (decide (¬ x ∈ V)) = true := by simp [hx]
        rw [List.filter_cons, List.filter_cons, c1, c2]
        simp only [if_true, List.length_cons]
        omega

theorem unvisCount_cons {g : SocialNetwork} {w : String} {V : List String}
    (hw : w ∈ g.edges.map Prod.snd) (hwV : ¬ w ∈ V) :
    unvisCount g (w :: V) + 1 = unvisCount g V :=
  length_filter_notmem_cons _ w V (List.nodup_dedup _) (List.mem_dedup.mpr hw) hwV

theorem unvisCount_le (g : SocialNetwork) (V : List String) :
    unvisCount g V ≤ g.edges.length := by
  calc unvisCount g V ≤ (g.edges.map Prod.snd).dedup.length := List.length_filter_le _ _
    _ ≤ (g.edges.map Prod.snd).length := (List.dedup_sublist _).length_le
    _ = g.edges.length := List.length_map _ _

theorem mem_walk_push {dfs : Bool} {w : String} {S : List String} {x : String} :
    x ∈ (if dfs then w :: S else S ++ [w]) ↔ x = w ∨ x ∈ S := by
  cases dfs <;> simp [List.mem_append, or_comm]

theorem mem_walkFold_visited (dfs : Bool) :
    ∀ (ns S V : List String) (x : String),
      x ∈ (ns.foldl (walkStep dfs) (S, V)).2 ↔ x ∈ V ∨ x ∈ ns := by
  intro ns
  induction ns with
  | nil => intro S V x; simp
  | cons w rest ih =>
    intro S V x
    have hstep : walkStep dfs (S, V) w =
        if w ∈ V then (S, V) else ((if dfs then w :: S else S ++ [w]), w :: V) := by
      unfold walkStep; rfl
    rw [List.foldl_cons, hstep]
    by_cases hw : w ∈ V
    · rw [if_pos hw, ih]
      constructor
      · rintro (h | h)
        · exact Or.inl h
        · exact Or.inr (List.mem_cons_of_mem w h)
      · rintro (h | h)
        · exact Or.inl h
        · rcases List.mem_cons.mp h with rfl | h'
          · exact Or.inl hw
          · exact Or.inr h'
    · rw [if_neg hw, ih]
      simp only [List.mem_cons]
      tauto

theorem mem_walkFold_stack (dfs : Bool) :
    ∀ (ns S V : List String) (x : String),
      x ∈ (ns.foldl (walkStep dfs) (S, V)).1 ↔ x ∈ S ∨ (x ∈ ns ∧ ¬ x ∈ V) := by
  intro ns
  induction ns with
  | nil => intro S V x; simp
  | cons w rest ih =>
    intro S V x
    have hstep : walkStep dfs (S, V) w =
        if w ∈ V then (S, V) else ((if dfs then w :: S else S ++ [w]), w :: V) := by
      unfold walkStep; rfl
    rw [List.foldl_cons, hstep]
    by_cases hw : w ∈ V
    · rw [if_pos hw, ih]
      constructor
      · rintro (h | ⟨h1, h2⟩)
        · exact Or.inl h
        · exact Or.inr ⟨List.mem_cons_of_mem w h1, h2⟩
      · rintro (h | ⟨h1, h2⟩)
        · exact Or.inl h
        · rcases List.mem_cons.mp h1 with rfl | h1'
          · exact absurd hw h2
          · exact Or.inr ⟨h1', h2⟩
    · rw [if_neg hw, ih, mem_walk_push]
      simp only [List.mem_cons]
      constructor
      · rintro ((rfl | h) | ⟨h1, h2⟩)
        · exact Or.inr ⟨Or.inl rfl, hw⟩
        · exact Or.inl h
        · have h2' : ¬ x ∈ V := fun hxv => h2 (Or.inr hxv)
          exact Or.inr ⟨Or.inr h1, h2'⟩
      · rintro (h | ⟨rfl | h1, h2⟩)
        · exact Or.inl (Or.inr h)
        · exact Or.inl (Or.inl rfl)
        · by_cases hxw : x = w
          · exact Or.inl (Or.inl hxw)
          · exact Or.inr ⟨h1, fun hor => by
              rcases hor with h' | h'
              · exact hxw h'
              · exact h2 h'⟩

theorem walkFold_measure {g : SocialNetwork} (dfs : Bool) :
    ∀ (ns S V : List String), (∀ w ∈ ns, w ∈ g.edges.map Prod.snd) →
      (ns.foldl (walkStep dfs) (S, V)).1.length +
          unvisCount g (ns.foldl (walkStep dfs) (S, V)).2 ≤
        S.length + unvisCount g V := by
  intro ns
  induction ns with
  | nil => intro S V _; exact Nat.le_refl _
  | cons w rest ih =>
    intro S V hn
    have hstep : walkStep dfs (S, V) w =
        if w ∈ V then (S, V) else ((if dfs then w :: S else S ++ [w]), w :: V) := by
      unfold walkStep; rfl
    rw [List.foldl_cons, hstep]
    by_cases hw : w ∈ V
    · rw [if_pos hw]
      exact ih S V (fun u hu => hn u (List.mem_cons_of_mem w hu))
    · rw [if_neg hw]
      have hlen : (if dfs then w :: S else S ++ [w]).length = S.length + 1 := by
        cases dfs <;> simp
      have hcnt : unvisCount g (w :: V) + 1 = unvisCount g V :=
        unvisCount_cons (hn w (List.mem_cons_self w rest)) hw
      have hih := ih (if dfs then w :: S else S ++ [w]) (w :: V)
        (fun u hu => hn u (List.mem_cons_of_mem w hu))
      rw [hlen] at hih
      omega

/-- Reachability from `s` along FRIEND edges avoiding the initially visited
set `V₀` — the specification both walk variants compute. -/
inductive ReachW (g : SocialNetwork) (s : String) (V₀ : List String) : String → Prop
  | base : ReachW g s V₀ s
  | step {u v : String} : ReachW g s V₀ u → v ∈ neighbors g u → ¬ v ∈ V₀ →
      ReachW g s V₀ v

theorem ReachW.start_or_notin {g : SocialNetwork} {s : String} {V₀ : List String}
    {x : String} (h : ReachW g s V₀ x) : x = s ∨ ¬ x ∈ V₀ := by
  cases h with
  | base => exact Or.inl rfl
  | step _ _ hv => exact Or.inr hv

theorem ReachW.congr_avoid {g : SocialNetwork} {s : String} {V₀ V₁ : List String}
    (hV : ∀ x, x ∈ V₀ ↔ x ∈ V₁) {x : String} (h : ReachW g s V₀ x) :
    ReachW g s V₁ x := by
  induction h with
  | base => exact ReachW.base
  | step _ hv hnv ih => exact ReachW.step ih hv (fun hmem => hnv ((hV _).mpr hmem))

theorem walkLoop_mono {g : SocialNetwork} (dfs : Bool) :
    ∀ (fuel : Nat) (S V : List String) (x : String),
      x ∈ V → x ∈ walkLoop g dfs fuel S V := by
  intro fuel
  induction fuel with
  | zero => intro S V x hx; exact hx
  | succ fuel ih =>
    intro S V x hx
    match S with
    | [] => exact hx
    | c :: S' =>
      show x ∈ walkLoop g dfs fuel _ _
      exact ih _ _ x ((mem_walkFold_visited dfs _ S' V x).mpr (Or.inl hx))

theorem walkLoop_subset_reach {g : SocialNetwork} (dfs : Bool) (s : String)
    (V₀ : List String) :
    ∀ (fuel : Nat) (S V : List String),
      (∀ u, u ∈ S → ReachW g s V₀ u) →
      (∀ x, x ∈ V → x ∈ V₀ ∨ ReachW g s V₀ x) →
      (∀ x, x ∈ V₀ → x ∈ V) →
      ∀ x, x ∈ walkLoop g dfs fuel S V → x ∈ V₀ ∨ ReachW g s V₀ x := by
  intro fuel
  induction fuel with
  | zero => intro S V _ hV _ x hx; exact hV x hx
  | succ fuel ih =>
    intro S V hS hV hV₀ x hx
    match S with
    | [] => exact hV x hx
    | c :: S' =>
      have hx' : x ∈ walkLoop g dfs fuel
          ((neighbors g c).foldl (walkStep dfs) (S', V)).1
          ((neighbors g c).foldl (walkStep dfs) (S', V)).2 := hx
      refine ih _ _ ?_ ?_ ?_ x hx'
      · intro u hu
        rcases (mem_walkFold_stack dfs _ S' V u).mp hu with h | ⟨h1, h2⟩
        · exact hS u (List.mem_cons_of_mem c h)
        · exact ReachW.step (hS c (List.mem_cons_self c S')) h1
            (fun hmem => h2 (hV₀ u hmem))
      · intro y hy
        rcases (mem_walkFold_visited dfs _ S' V y).mp hy with h | h
        · exact hV y h
        · by_cases hyV : y ∈ V
          · exact hV y hyV
          · exact Or.inr (ReachW.step (hS c (List.mem_cons_self c S')) h
              (fun hmem => hyV (hV₀ y hmem)))
      · intro y hy
        exact (mem_walkFold_visited dfs _ S' V y).mpr (Or.inl (hV₀ y hy))

theorem walkLoop_expands {g : SocialNetwork} (dfs : Bool) :
    ∀ (fuel : Nat) (S V : List String),
      S.length + unvisCount g V ≤ fuel →
      ∀ u, (u ∈ S ∨ (u ∈ walkLoop g dfs fuel S V ∧ ¬ u ∈ V)) →
      ∀ w, w ∈ neighbors g u → w ∈ walkLoop g dfs fuel S V := by
  intro fuel
  induction fuel with
  | zero =>
    intro S V hm u hu w hw
    have hS : S = [] := List.length_eq_zero.mp (Nat.le_zero.mp
      (Nat.le_trans (Nat.le_add_right _ _) hm))
    subst hS
    rcases hu with h | ⟨h1, h2⟩
    · exact absurd h (List.not_mem_nil u)
    · exact absurd h1 h2
  | succ fuel ih =>
    intro S V hm u hu w hw
    match S with
    | [] =>
      rcases hu with h | ⟨h1, h2⟩
      · exact absurd h (List.not_mem_nil u)
      · exact absurd h1 h2
    | c :: S' =>
      have hmeas : ((neighbors g c).foldl (walkStep dfs) (S', V)).1.length +
          unvisCount g ((neighbors g c).foldl (walkStep dfs) (S', V)).2 ≤ fuel := by
        have := walkFold_measure dfs (neighbors g c) S' V
          (fun y hy => neighbors_mem_targets hy)
        have hm' : (c :: S').length + unvisCount g V = S'.length + unvisCount g V + 1 := by
          simp [List.length_cons]; omega
        omega
      show w ∈ walkLoop g dfs fuel _ _
      have hbody : walkLoop g dfs (fuel + 1) (c :: S') V = walkLoop g dfs fuel
          ((neighbors g c).foldl (walkStep dfs) (S', V)).1
          ((neighbors g c).foldl (walkStep dfs) (S', V)).2 := rfl
      rcases hu with h | ⟨h1, h2⟩
      · rcases List.mem_cons.mp h with rfl | h'
        · -- u = c: w is marked visited by the fold, hence in the result
          exact walkLoop_mono dfs fuel _ _ w
            ((mem_walkFold_visited dfs _ S' V w).mpr (Or.inr hw))
        · -- u still on the stack
          exact ih _ _ hmeas u
            (Or.inl ((mem_walkFold_stack dfs _ S' V u).mpr (Or.inl h'))) w hw
      · -- u in the final result but not visited at entry
        rw [hbody] at h1
        by_cases hu2 : u ∈ ((neighbors g c).foldl (walkStep dfs) (S', V)).2
        · rcases (mem_walkFold_visited dfs _ S' V u).mp hu2 with h | h
          · exact absurd h h2
          · exact ih _ _ hmeas u
              (Or.inl ((mem_walkFold_stack dfs _ S' V u).mpr (Or.inr ⟨h, h2⟩))) w hw
        · exact ih _ _ hmeas u (Or.inr ⟨h1, hu2⟩) w hw

theorem walkLoop_reach_subset {g : SocialNetwork} (dfs : Bool) {s : String}
    {V : List String} {fuel : Nat}
    (hs : s ∈ V) (hm : 1 + unvisCount g V ≤ fuel) :
    ∀ x, ReachW g s V x → x ∈ walkLoop g dfs fuel [s] V := by
  intro x hx
  induction hx with
  | base => exact walkLoop_mono dfs fuel [s] V s hs
  | step hu hv hnv ih =>
    rename_i u v
    have hprem : u ∈ [s] ∨ (u ∈ walkLoop g dfs fuel [s] V ∧ ¬ u ∈ V) := by
      rcases ReachW.start_or_notin hu with rfl | h
      · exact Or.inl (List.mem_cons_self u [])
      · exact Or.inr ⟨ih, h⟩
    exact walkLoop_expands dfs fuel [s] V (by simpa using hm) u hprem _ hv

/-- Both walks compute the same set: the old visited set plus everything
reachable from the start avoiding it. -/
theorem walkLoop_char {g : SocialNetwork} (dfs : Bool) {s : String}
    {V : List String} {fuel : Nat}
    (hs : s ∈ V) (hm : 1 + unvisCount g V ≤ fuel) (x : String) :
    x ∈ walkLoop g dfs fuel [s] V ↔ x ∈ V ∨ ReachW g s V x := by
  constructor
  · intro hx
    refine walkLoop_subset_reach dfs s V fuel [s] V ?_ ?_ ?_ x hx
    · intro u hu
      rcases List.mem_cons.mp hu with rfl | h
      · exact ReachW.base
      · exact absurd h (List.not_mem_nil u)
    · exact fun y hy => Or.inl hy
    · exact fun y hy => hy
  · rintro (hx | hx)
    · exact walkLoop_mono dfs fuel [s] V x hx
    · exact walkLoop_reach_subset dfs hs hm x hx

theorem find_friend_groups_loop_eq (g : SocialNetwork) :
    ∀ (nodes : List String) (Vd Vb : List String) (n : Nat),
      (∀ x, x ∈ Vd ↔ x ∈ Vb) →
      (nodes.foldl
        (fun (acc : List String × Nat) node =>
          if node ∈ acc.1 then acc
          else (walkLoop g true (walkFuel g) [node] (node :: acc.1), acc.2 + 1))
        (Vd, n)).2 =
      (nodes.foldl
        (fun (acc : List String × Nat) node =>
          if node ∈ acc.1 then acc
          else (walkLoop g false (walkFuel g) [node] (node :: acc.1), acc.2 + 1))
        (Vb, n)).2 := by
  intro nodes
  induction nodes with
  | nil => intro Vd Vb n _; rfl
  | cons node rest ih =>
    intro Vd Vb n hVV
    rw [List.foldl_cons, List.foldl_cons]
    by_cases hnode : node ∈ Vd
    · rw [if_pos hnode, if_pos ((hVV node).mp hnode)]
      exact ih Vd Vb n hVV
    · have hnode' : ¬ node ∈ Vb := fun h => hnode ((hVV node).mpr h)
      rw [if_neg hnode, if_neg hnode']
      have hscons : ∀ x, x ∈ (node :: Vd) ↔ x ∈ (node :: Vb) := by
        intro x
        simp only [List.mem_cons]
        exact or_congr Iff.rfl (hVV x)
      have hmd : 1 + unvisCount g (node :: Vd) ≤ walkFuel g := by
        have := unvisCount_le g (node :: Vd)
        unfold walkFuel
        omega
      have hmb : 1 + unvisCount g (node :: Vb) ≤ walkFuel g := by
        have := unvisCount_le g (node :: Vb)
        unfold walkFuel
        omega
      refine ih _ _ (n + 1) ?_
      intro x
      rw [walkLoop_char true (List.mem_cons_self node Vd) hmd x,
        walkLoop_char false (List.mem_cons_self node Vb) hmb x]
      constructor
      · rintro (h | h)
        · exact Or.inl ((hscons x).mp h)
        · exact Or.inr (h.congr_avoid hscons)
      · rintro (h | h)
        · exact Or.inl ((hscons x).mpr h)
        · exact Or.inr (h.congr_avoid (fun y => (hscons y).symm))

/-- Claim C5: counting friend groups with the depth-first walk gives the same
number as with the breadth-first walk, on every graph. -/
theorem claim_C5_dfs_bfs_groups (g : SocialNetwork) :
    find_friend_groups g true = find_friend_groups g false := by
  unfold find_friend_groups
  exact find_friend_groups_loop_eq g g.nodes [] [] 0 (fun x => Iff.rfl)

/-! ## C3 and C4: BFS shortest-path soundness and optimality

The plan: an invariant `BfsInv` on the BFS loop state guarantees that the
parent dict encodes, for every visited node, a genuine edge path back to the
source whose length is optimal among all walks; when the target is dequeued,
the reconstructed path is therefore a shortest path.  Unreachability and
unknown-endpoint results for C3 follow from soundness alone. -/

/-- Every edge endpoint is a node — true of every state the API builds. -/
def wellFormed (g : SocialNetwork) : Prop :=
  ∀ e ∈ g.edges, e.1 ∈ g.nodes ∧ e.2 ∈ g.nodes

/-- `p` is a list-path from `a` to `b`: nonempty, starts at `a`, ends at `b`,
and every consecutive pair is joined by a FRIEND edge. -/
def isPathList (g : SocialNetwork) (a b : String) (p : List String) : Prop :=
  p.head? = some a ∧ p.getLast? = some b ∧
    List.Chain' (fun x y => (x, y) ∈ g.edges) p

/-- A walk of `n` edges from `a` to `b`. -/
inductive WalkN (g : SocialNetwork) : String → String → Nat → Prop
  | nil (a : String) : WalkN g a a 0
  | cons {a x b : String} {n : Nat} :
      (a, x) ∈ g.edges → WalkN g x b n → WalkN g a b (n + 1)

theorem walkN_zero {g : SocialNetwork} {a b : String} (h : WalkN g a b 0) : a = b := by
  cases h; rfl

theorem walkN_first_edge {g : SocialNetwork} {a b : String} {n : Nat}
    (h : WalkN g a b (n + 1)) : ∃ x, (a, x) ∈ g.edges := by
  cases h with
  | cons he _ => exact ⟨_, he⟩

theorem walkN_snoc_inv {g : SocialNetwork} :
    ∀ {n : Nat} {a b : String}, WalkN g a b (n + 1) →
      ∃ x, WalkN g a x n ∧ (x, b) ∈ g.edges := by
  intro n
  induction n with
  | zero =>
    intro a b h
    cases h with
    | cons he hw =>
      have := walkN_zero hw
      subst this
      exact ⟨a, WalkN.nil a, he⟩
  | succ m ih =>
    intro a b h
    cases h with
    | cons he hw =>
      obtain ⟨z, hz, hedge⟩ := ih hw
      exact ⟨z, WalkN.cons he hz, hedge⟩

theorem walkN_of_pathList {g : SocialNetwork} :
    ∀ (p : List String) (a b : String), p.head? = some a → p.getLast? = some b →
      List.Chain' (fun x y => (x, y) ∈ g.edges) p → WalkN g a b (p.length - 1) := by
  intro p
  induction p with
  | nil => intro a b h; cases h
  | cons x rest ih =>
    intro a b hhead hlast hchain
    have hx : x = a := by
      simp only [List.head?_cons, Option.some.injEq] at hhead
      exact hhead
    subst hx
    match rest, hlast, hchain with
    | [], hlast, _ =>
      have hb : x = b := by
        simp only [List.getLast?_singleton, Option.some.injEq] at hlast
        exact hlast
      subst hb
      exact WalkN.nil x
    | y :: rest', hlast, hchain =>
      have hedge : (x, y) ∈ g.edges := (List.chain'_cons.mp hchain).1
      have hchain' : List.Chain' (fun u v => (u, v) ∈ g.edges) (y :: rest') :=
        (List.chain'_cons.mp hchain).2
      have hlast' : (y :: rest').getLast? = some b := by
        rwa [List.getLast?_cons_cons] at hlast
      have hw := ih y b rfl hlast' hchain'
      have hlen : (x :: y :: rest').length - 1 = ((y :: rest').length - 1) + 1 := by
        simp
      rw [hlen]
      exact WalkN.cons hedge hw

theorem pathList_of_walkN {g : SocialNetwork} {a b : String} {n : Nat}
    (h : WalkN g a b n) : ∃ p, isPathList g a b p ∧ p.length = n + 1 := by
  induction h with
  | nil a => exact ⟨[a], ⟨rfl, rfl, List.chain'_singleton a⟩, rfl⟩
  | cons he hw ih =>
    obtain ⟨p, ⟨hhead, hlast, hchain⟩, hlen⟩ := ih
    rename_i a' x' b' n'
    refine ⟨a' :: p, ⟨rfl, ?_, ?_⟩, by simp [hlen]⟩
    · match p, hlast with
      | z :: p', hlast => rw [List.getLast?_cons_cons]; exact hlast
    · rw [List.chain'_cons']
      constructor
      · intro h hh
        rw [hhead] at hh
        cases hh
        exact he
      · exact hchain

/-! ### The parent dict: lookup, chain length, depth -/

theorem plookup_mem {par : List (String × String)} {k v : String}
    (h : plookup par k = some v) : (k, v) ∈ par := by
  induction par with
  | nil => cases h
  | cons e rest ih =>
    rw [show plookup (e :: rest) k = if e.1 = k then some e.2 else plookup rest k from rfl]
      at h
    by_cases he : e.1 = k
    · rw [if_pos he] at h
      injection h with h2
      subst h2
      have he2 : (k, e.2) = e := by rw [← he]
      rw [he2]
      exact List.mem_cons_self e rest
    · rw [if_neg he] at h
      exact List.mem_cons_of_mem e (ih h)

theorem plookup_cons {e : String × String} {par : List (String × String)} {k : String} :
    plookup (e :: par) k = if e.1 = k then some e.2 else plookup par k := rfl

/-- Length of the parent chain from a node down to a lookup failure. -/
inductive ChainLen (par : List (String × String)) : String → Nat → Prop
  | zero {c : String} : plookup par c = none → ChainLen par c 0
  | succ {c p : String} {n : Nat} :
      plookup par c = some p → ChainLen par p n → ChainLen par c (n + 1)

theorem chainLen_unique {par : List (String × String)} :
    ∀ {c : String} {n m : Nat}, ChainLen par c n → ChainLen par c m → n = m := by
  intro c n m hn
  induction hn generalizing m with
  | zero h =>
    intro hm
    cases hm with
    | zero _ => rfl
    | succ h' _ => rw [h] at h'; cases h'
  | succ h _ ih =>
    intro hm
    cases hm with
    | zero h' => rw [h] at h'; cases h'
    | succ h' hm' =>
      rw [h] at h'
      cases h'
      rw [ih hm']

/-- The inductive well-formedness of the parent dict as BFS builds it: new
keys are fresh, never the source, and point at the source or an older key. -/
inductive ParOk (s : String) : List (String × String) → Prop
  | nil : ParOk s []
  | cons {k v : String} {par : List (String × String)} :
      ParOk s par → ¬ k = s → plookup par k = none →
      (v = s ∨ (plookup par v).isSome) → ParOk s ((k, v) :: par)

theorem parOk_lookup_start {s : String} {par : List (String × String)}
    (h : ParOk s par) : plookup par s = none := by
  induction h with
  | nil => rfl
  | cons hsub hks hkn hv ih =>
    rename_i k v par'
    rw [show plookup ((k, v) :: par') s = if k = s then some v else plookup par' s from rfl]
    rw [if_neg hks]
    exact ih

theorem plookup_cons_isSome_mono {k₀ v₀ : String} {par : List (String × String)}
    {x : String} (hx : (plookup par x).isSome) :
    (plookup ((k₀, v₀) :: par) x).isSome := by
  rw [show plookup ((k₀, v₀) :: par) x = if k₀ = x then some v₀ else plookup par x from rfl]
  by_cases he : k₀ = x
  · rw [if_pos he]; rfl
  · rw [if_neg he]; exact hx

theorem parOk_value_ok {s : String} {par : List (String × String)} (h : ParOk s par) :
    ∀ k v, (k, v) ∈ par → v = s ∨ (plookup par v).isSome := by
  induction h with
  | nil => intro k v hv; cases hv
  | cons hsub hks hkn hv ih =>
    rename_i k₀ v₀ par'
    intro k v hkv
    rcases List.mem_cons.mp hkv with heq | hmem
    · injection heq with h1 h2
      subst h1; subst h2
      rcases hv with h' | h'
      · exact Or.inl h'
      · exact Or.inr (plookup_cons_isSome_mono h')
    · rcases ih k v hmem with h' | h'
      · exact Or.inl h'
      · exact Or.inr (plookup_cons_isSome_mono h')

theorem chainLen_lift {par : List (String × String)} {k v c : String} {n : Nat}
    (hck : ¬ c = k) (hvals : ∀ k' v', (k', v') ∈ par → ¬ v' = k)
    (h : ChainLen par c n) : ChainLen ((k, v) :: par) c n := by
  induction h with
  | zero hnone =>
    refine ChainLen.zero ?_
    rw [plookup_cons, if_neg (fun he => hck he.symm)]
    exact hnone
  | succ hsome hrest ih =>
    rename_i c' p' n'
    refine ChainLen.succ ?_ (ih (hvals _ _ (plookup_mem hsome)))
    rw [plookup_cons, if_neg (fun he => hck he.symm)]
    exact hsome

theorem plookup_cons_none {e : String × String} {par : List (String × String)}
    {x : String} (h : plookup (e :: par) x = none) :
    ¬ e.1 = x ∧ plookup par x = none := by
  rw [plookup_cons] at h
  by_cases he : e.1 = x
  · rw [if_pos he] at h; cases h
  · rw [if_neg he] at h; exact ⟨he, h⟩

theorem parOk_values_ne {s : String} {par : List (String × String)} (h : ParOk s par)
    {k₀ : String} (hk₀ : plookup par k₀ = none) (hk₀s : ¬ k₀ = s) :
    ∀ k' v', (k', v') ∈ par → ¬ v' = k₀ := by
  intro k' v' hmem heq
  subst heq
  rcases parOk_value_ok h k' v' hmem with h' | h'
  · exact hk₀s h'
  · rw [hk₀] at h'; cases h'

theorem chainLen_exists_le {s : String} {par : List (String × String)} (h : ParOk s par) :
    ∀ c, ∃ n, ChainLen par c n ∧ n ≤ par.length := by
  induction h with
  | nil => intro c; exact ⟨0, ChainLen.zero rfl, Nat.le_refl 0⟩
  | cons hsub hks hkn hv ih =>
    rename_i k v par'
    intro c
    by_cases hck : c = k
    · subst hck
      have hl : plookup ((c, v) :: par') c = some v := by
        rw [show plookup ((c, v) :: par') c =
          if c = c then some v else plookup par' c from rfl]
        rw [if_pos rfl]
      rcases hv with hvs | hv'
      · have hchain : ChainLen ((c, v) :: par') v 0 := by
          refine ChainLen.zero ?_
          rw [show plookup ((c, v) :: par') v =
            if c = v then some v else plookup par' v from rfl]
          have hcv : ¬ c = v := fun h => hks (h.trans hvs)
          rw [if_neg hcv, hvs]
          exact parOk_lookup_start hsub
        exact ⟨1, ChainLen.succ hl hchain, by simp⟩
      · obtain ⟨n, hn, hle⟩ := ih v
        have hvk : ¬ v = c := by
          intro hvv
          subst hvv
          rw [hkn] at hv'
          cases hv'
        have hn' : ChainLen ((c, v) :: par') v n :=
          chainLen_lift hvk (parOk_values_ne hsub hkn hks) hn
        exact ⟨n + 1, ChainLen.succ hl hn', by simpa using Nat.succ_le_succ hle⟩
    · obtain ⟨n, hn, hle⟩ := ih c
      have hn' : ChainLen ((k, v) :: par') c n :=
        chainLen_lift hck (parOk_values_ne hsub hkn hks) hn
      exact ⟨n, hn', Nat.le_trans hle (by simp)⟩

theorem chainLen_bound {s : String} {par : List (String × String)} (h : ParOk s par)
    {c : String} {n : Nat} (hc : ChainLen par c n) : n ≤ par.length := by
  obtain ⟨m, hm, hle⟩ := chainLen_exists_le h c
  rw [chainLen_unique hc hm]
  exact hle

theorem followParent_succ (par : List (String × String)) (fuel : Nat) (c : String) :
    followParent par (fuel + 1) c =
      match plookup par c with
      | some p => c :: followParent par fuel p
      | none => [] := rfl

theorem followParent_of_chainLen {par : List (String × String)} :
    ∀ {c : String} {n : Nat}, ChainLen par c n →
      ∀ fuel₁ fuel₂, n ≤ fuel₁ → n ≤ fuel₂ →
        followParent par fuel₁ c = followParent par fuel₂ c := by
  intro c n h
  induction h with
  | zero hnone =>
    intro f1 f2 _ _
    match f1, f2 with
    | 0, 0 => rfl
    | 0, m + 1 => simp [followParent_succ, hnone]; rfl
    | m + 1, 0 => simp [followParent_succ, hnone]; rfl
    | m + 1, k + 1 => simp [followParent_succ, hnone]
  | succ hsome hrest ih =>
    rename_i c' p' n'
    intro f1 f2 h1 h2
    match f1, h1, f2, h2 with
    | m + 1, h1, k + 1, h2 =>
      simp only [followParent_succ, hsome]
      rw [ih m k (Nat.le_of_succ_le_succ h1) (Nat.le_of_succ_le_succ h2)]

theorem followParent_length_of_chainLen {par : List (String × String)} :
    ∀ {c : String} {n : Nat}, ChainLen par c n →
      ∀ fuel, n ≤ fuel → (followParent par fuel c).length = n := by
  intro c n h
  induction h with
  | zero hnone =>
    intro fuel _
    match fuel with
    | 0 => rfl
    | m + 1 => simp [followParent_succ, hnone]
  | succ hsome hrest ih =>
    rename_i c' p' n'
    intro fuel hle
    match fuel, hle with
    | m + 1, hle =>
      simp only [followParent_succ, hsome, List.length_cons]
      rw [ih m (Nat.le_of_succ_le_succ hle)]

/-- The chain length encoded by the canonical fuel used in `reconstructPath`. -/
def pdepth (par : List (String × String)) (c : String) : Nat :=
  (followParent par (par.length + 1) c).length

theorem pdepth_of_chainLen {par : List (String × String)} {c : String} {n : Nat}
    (h : ChainLen par c n) (hle : n ≤ par.length) : pdepth par c = n :=
  followParent_length_of_chainLen h (par.length + 1) (Nat.le_succ_of_le hle)

theorem chainLen_pdepth {s : String} {par : List (String × String)} (h : ParOk s par)
    (c : String) : ChainLen par c (pdepth par c) := by
  obtain ⟨n, hn, hle⟩ := chainLen_exists_le h c
  rw [pdepth_of_chainLen hn hle]
  exact hn

/-! ### Closed form of the BFS neighbor fold -/

/-- The sublist of `ns` that is fresh with respect to `V`, in encounter order
and deduplicated on the fly — exactly the nodes the BFS fold pushes. -/
def freshList (V : List String) : List String → List String
  | [] => []
  | w :: ws => if w ∈ V then freshList V ws else w :: freshList (w :: V) ws

theorem freshList_sub :
    ∀ (ns V : List String) (x : String), x ∈ freshList V ns → x ∈ ns ∧ ¬ x ∈ V := by
  intro ns
  induction ns with
  | nil => intro V x hx; cases hx
  | cons w ws ih =>
    intro V x hx
    unfold freshList at hx
    by_cases hw : w ∈ V
    · rw [if_pos hw] at hx
      obtain ⟨h1, h2⟩ := ih V x hx
      exact ⟨List.mem_cons_of_mem w h1, h2⟩
    · rw [if_neg hw] at hx
      rcases List.mem_cons.mp hx with rfl | hx'
      · exact ⟨List.mem_cons_self x ws, hw⟩
      · obtain ⟨h1, h2⟩ := ih (w :: V) x hx'
        exact ⟨List.mem_cons_of_mem w h1, fun hv => h2 (List.mem_cons_of_mem w hv)⟩

theorem freshList_nodup : ∀ (ns V : List String), (freshList V ns).Nodup := by
  intro ns
  induction ns with
  | nil => intro V; exact List.nodup_nil
  | cons w ws ih =>
    intro V
    unfold freshList
    by_cases hw : w ∈ V
    · rw [if_pos hw]; exact ih V
    · rw [if_neg hw]
      refine List.nodup_cons.mpr ⟨?_, ih (w :: V)⟩
      intro hmem
      exact (freshList_sub ws (w :: V) w hmem).2 (List.mem_cons_self w V)

theorem freshList_complete :
    ∀ (ns V : List String) (x : String), x ∈ ns → x ∈ V ∨ x ∈ freshList V ns := by
  intro ns
  induction ns with
  | nil => intro V x hx; cases hx
  | cons w ws ih =>
    intro V x hx
    unfold freshList
    by_cases hw : w ∈ V
    · rw [if_pos hw]
      rcases List.mem_cons.mp hx with rfl | hx'
      · exact Or.inl hw
      · exact ih V x hx'
    · rw [if_neg hw]
      rcases List.mem_cons.mp hx with rfl | hx'
      · exact Or.inr (List.mem_cons_self x _)
      · rcases ih (w :: V) x hx' with h | h
        · rcases List.mem_cons.mp h with rfl | h'
          · exact Or.inr (List.mem_cons_self x _)
          · exact Or.inl h'
        · exact Or.inr (List.mem_cons_of_mem w h)

theorem bfsFold_eq (c : String) :
    ∀ (ns V : List String) (par : List (String × String)) (Q : List String),
      ns.foldl (bfsStep c) (V, par, Q) =
        ((freshList V ns).reverse ++ V,
         (freshList V ns).reverse.map (fun w => (w, c)) ++ par,
         Q ++ freshList V ns) := by
  intro ns
  induction ns with
  | nil => intro V par Q; simp [freshList]
  | cons w ws ih =>
    intro V par Q
    rw [List.foldl_cons]
    have hstep : bfsStep c (V, par, Q) w =
        if w ∈ V then (V, par, Q) else (w :: V, (w, c) :: par, Q ++ [w]) := by
      unfold bfsStep; rfl
    rw [hstep]
    unfold freshList
    by_cases hw : w ∈ V
    · rw [if_pos hw, if_pos hw]
      exact ih V par Q
    · rw [if_neg hw, if_neg hw]
      rw [ih (w :: V) ((w, c) :: par) (Q ++ [w])]
      simp [List.append_assoc]

/-! ### Extending the parent dict by a block of fresh entries -/

theorem plookup_block_mem {c : String} {par : List (String × String)} :
    ∀ (L : List String) (x : String), x ∈ L →
      plookup (L.map (fun w => (w, c)) ++ par) x = some c := by
  intro L
  induction L with
  | nil => intro x hx; cases hx
  | cons y L' ih =>
    intro x hx
    rw [List.map_cons, List.cons_append]
    rw [show plookup ((y, c) :: (L'.map (fun w => (w, c)) ++ par)) x =
      if y = x then some c else plookup (L'.map (fun w => (w, c)) ++ par) x from rfl]
    by_cases hxy : y = x
    · rw [if_pos hxy]
    · rw [if_neg hxy]
      rcases List.mem_cons.mp hx with rfl | hx'
      · exact absurd rfl hxy
      · exact ih x hx'

theorem plookup_block_not_mem {c : String} {par : List (String × String)} :
    ∀ (L : List String) (x : String), ¬ x ∈ L →
      plookup (L.map (fun w => (w, c)) ++ par) x = plookup par x := by
  intro L
  induction L with
  | nil => intro x _; rfl
  | cons y L' ih =>
    intro x hx
    rw [List.map_cons, List.cons_append]
    rw [show plookup ((y, c) :: (L'.map (fun w => (w, c)) ++ par)) x =
      if y = x then some c else plookup (L'.map (fun w => (w, c)) ++ par) x from rfl]
    have hxy : ¬ y = x := fun h => hx (h ▸ List.mem_cons_self y L')
    rw [if_neg hxy]
    exact ih x (fun h => hx (List.mem_cons_of_mem y h))

theorem parOk_append_block {s c : String} :
    ∀ (F : List String) (par : List (String × String)),
      ParOk s par → F.Nodup →
      (∀ x ∈ F, plookup par x = none ∧ ¬ x = s) →
      (c = s ∨ (plookup par c).isSome) →
      ParOk s (F.reverse.map (fun w => (w, c)) ++ par) := by
  intro F
  induction F with
  | nil => intro par hok _ _ _; exact hok
  | cons w F' ih =>
    intro par hok hnd hF hc
    have hblock : (w :: F').reverse.map (fun w' => (w', c)) ++ par =
        F'.reverse.map (fun w' => (w', c)) ++ ((w, c) :: par) := by
      simp [List.append_assoc]
    rw [hblock]
    have hw := hF w (List.mem_cons_self w F')
    have hok' : ParOk s ((w, c) :: par) := ParOk.cons hok hw.2 hw.1 hc
    refine ih ((w, c) :: par) hok' (List.nodup_cons.mp hnd).2 ?_ ?_
    · intro x hx
      have hxF := hF x (List.mem_cons_of_mem w hx)
      have hxw : ¬ w = x := by
        intro h
        exact (List.nodup_cons.mp hnd).1 (h ▸ hx)
      constructor
      · rw [show plookup ((w, c) :: par) x =
          if w = x then some c else plookup par x from rfl]
        rw [if_neg hxw]
        exact hxF.1
      · exact hxF.2
    · rcases hc with h | h
      · exact Or.inl h
      · exact Or.inr (plookup_cons_isSome_mono h)

/-- Chains of nodes whose every link stays inside `V` are unaffected by a
block of fresh keys. -/
theorem chainLen_extend {par : List (String × String)} {F : List String}
    {c : String} {V : List String}
    (hFV : ∀ x ∈ F, ¬ x ∈ V) (hvals : ∀ k v, (k, v) ∈ par → v ∈ V) :
    ∀ {x : String} {n : Nat}, ChainLen par x n → x ∈ V →
      ChainLen (F.reverse.map (fun w => (w, c)) ++ par) x n := by
  intro x n h
  induction h with
  | zero hnone =>
    intro hxV
    refine ChainLen.zero ?_
    rw [plookup_block_not_mem F.reverse _ ?_]
    · exact hnone
    · intro hmem
      exact hFV _ (List.mem_reverse.mp hmem) hxV
  | succ hsome hrest ih =>
    rename_i c' p' n'
    intro hxV
    have hp'V : p' ∈ V := hvals _ _ (plookup_mem hsome)
    refine ChainLen.succ ?_ (ih hp'V)
    rw [plookup_block_not_mem F.reverse c' ?_]
    · exact hsome
    · intro hmem
      exact hFV c' (List.mem_reverse.mp hmem) hxV

/-! ### Path reconstruction is a genuine edge path -/

theorem recon_spec {g : SocialNetwork} {s : String} {par : List (String × String)}
    (hok : ParOk s par) (hedge : ∀ k v, (k, v) ∈ par → (v, k) ∈ g.edges) :
    ∀ (n : Nat) (c : String), ChainLen par c n → (c = s ∨ (plookup par c).isSome) →
      (reconstructPath par s c).head? = some s ∧
      (reconstructPath par s c).getLast? = some c ∧
      List.Chain' (fun x y => (x, y) ∈ g.edges) (reconstructPath par s c) ∧
      (reconstructPath par s c).length = n + 1 := by
  intro n
  induction n with
  | zero =>
    intro c hc hcok
    have hnone : plookup par c = none := by cases hc with | zero h => exact h
    have hcs : c = s := by
      rcases hcok with h | h
      · exact h
      · rw [hnone] at h; cases h
    subst hcs
    have hone : reconstructPath par c c = [c] := by
      unfold reconstructPath
      simp [followParent_succ, hnone]
    rw [hone]
    exact ⟨rfl, rfl, List.chain'_singleton _, rfl⟩
  | succ m ih =>
    intro c hc hcok
    obtain ⟨p, hsome, hrest⟩ : ∃ p, plookup par c = some p ∧ ChainLen par p m := by
      cases hc with | succ h1 h2 => exact ⟨_, h1, h2⟩
    have hpok : p = s ∨ (plookup par p).isSome :=
      parOk_value_ok hok c p (plookup_mem hsome)
    have hbound_m : m ≤ par.length := chainLen_bound hok hrest
    have hstab : followParent par par.length p = followParent par (par.length + 1) p :=
      followParent_of_chainLen hrest _ _ hbound_m (Nat.le_succ_of_le hbound_m)
    have hkey : reconstructPath par s c = reconstructPath par s p ++ [c] := by
      show (followParent par (par.length + 1) c ++ [s]).reverse = _
      simp only [followParent_succ, hsome]
      rw [hstab]
      rw [List.cons_append, List.reverse_cons]
      rfl
    obtain ⟨ih1, ih2, ih3, ih4⟩ := ih p hrest hpok
    rw [hkey]
    have hedge_pc : (p, c) ∈ g.edges := hedge c p (plookup_mem hsome)
    refine ⟨?_, ?_, ?_, ?_⟩
    · cases hq : reconstructPath par s p with
      | nil => rw [hq] at ih1; cases ih1
      | cons z t =>
        rw [hq] at ih1
        simp only [List.head?_cons, Option.some.injEq] at ih1
        subst ih1
        rfl
    · exact List.getLast?_concat _
    · rw [List.chain'_append]
      refine ⟨ih3, List.chain'_singleton c, ?_⟩
      intro x hx y hy
      rw [ih2] at hx
      cases hx
      cases hy
      exact hedge_pc
    · simp [ih4]

/-! ### The BFS loop invariant -/

/-- Invariant of the `_shortest_path_transaction` BFS loop state
(queue `Q`, visited `V`, parent dict `par`) for source `s`. -/
structure BfsInv (g : SocialNetwork) (s : String) (Q V : List String)
    (par : List (String × String)) : Prop where
  parOk : ParOk s par
  parEdge : ∀ k v, (k, v) ∈ par → (v, k) ∈ g.edges
  parVis : ∀ k v, (k, v) ∈ par → k ∈ V ∧ v ∈ V
  visKeyed : ∀ x, x ∈ V → x = s ∨ (plookup par x).isSome
  startVis : s ∈ V
  queueVis : ∀ y, y ∈ Q → y ∈ V
  sorted : List.Pairwise (fun x y => pdepth par x ≤ pdepth par y) Q
  window : ∀ x, x ∈ Q → ∀ y, y ∈ Q → pdepth par x ≤ pdepth par y + 1
  optim : ∀ v, v ∈ V → ∀ n, WalkN g s v n → pdepth par v ≤ n
  frontier : ∀ u, ¬ u ∈ V → ∀ n, WalkN g s u n → ∀ h, Q.head? = some h →
    pdepth par h + 1 ≤ n
  procHead : ∀ v, v ∈ V → ¬ v ∈ Q → ∀ h, Q.head? = some h →
    pdepth par v ≤ pdepth par h
  procClosed : ∀ v, v ∈ V → ¬ v ∈ Q → ∀ w, w ∈ neighbors g v → w ∈ V

theorem pdepth_nil (c : String) : pdepth [] c = 0 := rfl

theorem bfsInv_init (g : SocialNetwork) (s : String) : BfsInv g s [s] [s] [] := by
  refine ⟨ParOk.nil, ?_, ?_, ?_, ?_, ?_, ?_, ?_, ?_, ?_, ?_, ?_⟩
  · intro k v hv; cases hv
  · intro k v hv; cases hv
  · intro x hx
    rcases List.mem_cons.mp hx with rfl | h
    · exact Or.inl rfl
    · cases h
  · exact List.mem_cons_self s []
  · exact fun y hy => hy
  · exact List.pairwise_singleton _ s
  · intro x _ y _
    rw [pdepth_nil, pdepth_nil]
    omega
  · intro v hv n _
    rw [pdepth_nil]
    omega
  · intro u hu n hw h hh
    simp only [List.head?_cons, Option.some.injEq] at hh
    subst hh
    rw [pdepth_nil]
    match n, hw with
    | 0, hw =>
      have := walkN_zero hw
      exact absurd (this ▸ List.mem_cons_self s []) hu
    | n + 1, _ => omega
  · intro v hv hvq h hh
    rcases List.mem_cons.mp hv with rfl | h'
    · exact absurd (List.mem_cons_self v []) hvq
    · cases h'
  · intro v hv hvq w _
    rcases List.mem_cons.mp hv with rfl | h'
    · exact absurd (List.mem_cons_self v []) hvq
    · cases h'

theorem head?_mem {α : Type} {l : List α} {h : α} (hh : l.head? = some h) : h ∈ l := by
  cases l with
  | nil => cases hh
  | cons a t =>
    simp only [List.head?_cons, Option.some.injEq] at hh
    rw [← hh]
    exact List.mem_cons_self a t

theorem pairwise_head_min {α : Type} {R : α → α → Prop} {l : List α} {h : α}
    (hp : l.Pairwise R) (hh : l.head? = some h) (hrefl : R h h) :
    ∀ y ∈ l, R h y := by
  cases l with
  | nil => cases hh
  | cons a t =>
    simp only [List.head?_cons, Option.some.injEq] at hh
    subst hh
    intro y hy
    rcases List.mem_cons.mp hy with rfl | hy'
    · exact hrefl
    · exact (List.pairwise_cons.mp hp).1 y hy'

theorem pairwise_of_all {α : Type} {R : α → α → Prop} :
    ∀ (l : List α), (∀ x ∈ l, ∀ y ∈ l, R x y) → l.Pairwise R := by
  intro l
  induction l with
  | nil => intro _; exact List.Pairwise.nil
  | cons a t ih =>
    intro h
    refine List.Pairwise.cons ?_ (ih ?_)
    · intro y hy
      exact h a (List.mem_cons_self a t) y (List.mem_cons_of_mem a hy)
    · intro x hx y hy
      exact h x (List.mem_cons_of_mem a hx) y (List.mem_cons_of_mem a hy)

/-- One non-target dequeue step preserves the BFS invariant. -/
theorem bfsInv_step {g : SocialNetwork} {s : String} {c : String}
    {rest V : List String} {par : List (String × String)}
    (hInv : BfsInv g s (c :: rest) V par) :
    BfsInv g s (rest ++ freshList V (neighbors g c))
      ((freshList V (neighbors g c)).reverse ++ V)
      ((freshList V (neighbors g c)).reverse.map (fun w => (w, c)) ++ par) := by
  set ns := neighbors g c with hns
  set F := freshList V ns with hF
  set par' := F.reverse.map (fun w => (w, c)) ++ par with hpar'
  set V' := F.reverse ++ V with hV'
  set Q' := rest ++ F with hQ'
  have hcQ : c ∈ c :: rest := List.mem_cons_self c rest
  have hcV : c ∈ V := hInv.queueVis c hcQ
  have hFsub : ∀ x ∈ F, x ∈ ns ∧ ¬ x ∈ V := fun x hx => freshList_sub ns V x hx
  have hFnd : F.Nodup := freshList_nodup ns V
  have hparvalsV : ∀ k v, (k, v) ∈ par → v ∈ V := fun k v h => (hInv.parVis k v h).2
  have hcok : c = s ∨ (plookup par c).isSome := hInv.visKeyed c hcV
  have hlookup_none : ∀ x, ¬ x ∈ V → plookup par x = none := by
    intro x hxV
    cases hpl : plookup par x with
    | none => rfl
    | some v => exact absurd (hInv.parVis x v (plookup_mem hpl)).1 hxV
  have hVnotF : ∀ x, x ∈ V → ¬ x ∈ F := fun x hxV hxF => (hFsub x hxF).2 hxV
  have hok' : ParOk s par' :=
    parOk_append_block F par hInv.parOk hFnd
      (fun x hx => ⟨hlookup_none x (hFsub x hx).2,
        fun hxs => (hFsub x hx).2 (hxs ▸ hInv.startVis)⟩) hcok
  have hV'mem : ∀ x, x ∈ V' ↔ x ∈ F ∨ x ∈ V := by
    intro x
    rw [hV', List.mem_append, List.mem_reverse]
  have hQ'mem : ∀ x, x ∈ Q' ↔ x ∈ rest ∨ x ∈ F := by
    intro x
    rw [hQ', List.mem_append]
  have hparlen : par.length ≤ par'.length := by
    rw [hpar', List.length_append]
    omega
  have hdp : ∀ x, x ∈ V → pdepth par' x = pdepth par x := by
    intro x hxV
    have hchain : ChainLen par x (pdepth par x) := chainLen_pdepth hInv.parOk x
    have hchain' : ChainLen par' x (pdepth par x) :=
      chainLen_extend (fun y hy => (hFsub y hy).2) hparvalsV hchain hxV
    exact pdepth_of_chainLen hchain'
      (Nat.le_trans (chainLen_bound hInv.parOk hchain) hparlen)
  have hdf : ∀ x, x ∈ F → pdepth par' x = pdepth par c + 1 := by
    intro x hxF
    have hlk : plookup par' x = some c :=
      plookup_block_mem F.reverse x (List.mem_reverse.mpr hxF)
    have hchainc : ChainLen par c (pdepth par c) := chainLen_pdepth hInv.parOk c
    have hchainc' : ChainLen par' c (pdepth par c) :=
      chainLen_extend (fun y hy => (hFsub y hy).2) hparvalsV hchainc hcV
    have hchain' : ChainLen par' x (pdepth par c + 1) := ChainLen.succ hlk hchainc'
    refine pdepth_of_chainLen hchain' ?_
    have h1 : pdepth par c ≤ par.length := chainLen_bound hInv.parOk hchainc
    have h2 : 1 ≤ F.length := List.length_pos.mpr (List.ne_nil_of_mem hxF)
    rw [hpar', List.length_append, List.length_map, List.length_reverse]
    omega
  have hheadc : (c :: rest).head? = some c := rfl
  have hrest_relc : ∀ y ∈ rest, pdepth par c ≤ pdepth par y :=
    (List.pairwise_cons.mp hInv.sorted).1
  -- the new queue is sorted
  have hsorted' : List.Pairwise (fun x y => pdepth par' x ≤ pdepth par' y) Q' := by
    rw [hQ', List.pairwise_append]
    refine ⟨?_, ?_, ?_⟩
    · refine ((List.pairwise_cons.mp hInv.sorted).2).imp_of_mem ?_
      intro a b ha hb hab
      rw [hdp a (hInv.queueVis a (List.mem_cons_of_mem c ha)),
        hdp b (hInv.queueVis b (List.mem_cons_of_mem c hb))]
      exact hab
    · refine pairwise_of_all F ?_
      intro x hx y hy
      rw [hdf x hx, hdf y hy]
    · intro a ha b hb
      rw [hdp a (hInv.queueVis a (List.mem_cons_of_mem c ha)), hdf b hb]
      exact hInv.window a (List.mem_cons_of_mem c ha) c hcQ
  -- the new closure property, needed also inside the frontier proof
  have hprocClosed' : ∀ v, v ∈ V' → ¬ v ∈ Q' → ∀ w, w ∈ neighbors g v → w ∈ V' := by
    intro v hv hvq w hw
    rcases (hV'mem v).mp hv with hvF | hvV
    · exact absurd ((hQ'mem v).mpr (Or.inr hvF)) hvq
    · by_cases hvc : v = c
      · subst hvc
        rcases freshList_complete ns V w hw with h | h
        · exact (hV'mem w).mpr (Or.inr h)
        · exact (hV'mem w).mpr (Or.inl h)
      · have hvrest : ¬ v ∈ rest := fun h => hvq ((hQ'mem v).mpr (Or.inl h))
        have hvQ : ¬ v ∈ c :: rest := by
          intro h
          rcases List.mem_cons.mp h with h' | h'
          · exact hvc h'
          · exact hvrest h'
        exact (hV'mem w).mpr (Or.inr (hInv.procClosed v hvV hvQ w hw))
  refine ⟨hok', ?_, ?_, ?_, ?_, ?_, hsorted', ?_, ?_, ?_, ?_, hprocClosed'⟩
  · -- parEdge
    intro k v hkv
    rw [hpar', List.mem_append] at hkv
    rcases hkv with h | h
    · obtain ⟨w, hwF, hweq⟩ := List.mem_map.mp h
      rw [Prod.mk.injEq] at hweq
      obtain ⟨rfl, rfl⟩ := hweq
      exact mem_neighbors.mp (hFsub w (List.mem_reverse.mp hwF)).1
    · exact hInv.parEdge k v h
  · -- parVis
    intro k v hkv
    rw [hpar', List.mem_append] at hkv
    rcases hkv with h | h
    · obtain ⟨w, hwF, hweq⟩ := List.mem_map.mp h
      rw [Prod.mk.injEq] at hweq
      obtain ⟨rfl, rfl⟩ := hweq
      exact ⟨(hV'mem w).mpr (Or.inl (List.mem_reverse.mp hwF)),
        (hV'mem c).mpr (Or.inr hcV)⟩
    · obtain ⟨h1, h2⟩ := hInv.parVis k v h
      exact ⟨(hV'mem k).mpr (Or.inr h1), (hV'mem v).mpr (Or.inr h2)⟩
  · -- visKeyed
    intro x hx
    rcases (hV'mem x).mp hx with hxF | hxV
    · refine Or.inr ?_
      rw [plookup_block_mem F.reverse x (List.mem_reverse.mpr hxF)]
      rfl
    · rcases hInv.visKeyed x hxV with h | h
      · exact Or.inl h
      · refine Or.inr ?_
        rw [plookup_block_not_mem F.reverse x
          (fun hm => hVnotF x hxV (List.mem_reverse.mp hm))]
        exact h
  · -- startVis
    exact (hV'mem s).mpr (Or.inr hInv.startVis)
  · -- queueVis
    intro y hy
    rcases (hQ'mem y).mp hy with h | h
    · exact (hV'mem y).mpr (Or.inr (hInv.queueVis y (List.mem_cons_of_mem c h)))
    · exact (hV'mem y).mpr (Or.inl h)
  · -- window
    intro x hx y hy
    rcases (hQ'mem x).mp hx with hxr | hxF <;> rcases (hQ'mem y).mp hy with hyr | hyF
    · rw [hdp x (hInv.queueVis x (List.mem_cons_of_mem c hxr)),
        hdp y (hInv.queueVis y (List.mem_cons_of_mem c hyr))]
      exact hInv.window x (List.mem_cons_of_mem c hxr) y (List.mem_cons_of_mem c hyr)
    · rw [hdp x (hInv.queueVis x (List.mem_cons_of_mem c hxr)), hdf y hyF]
      have := hInv.window x (List.mem_cons_of_mem c hxr) c hcQ
      omega
    · rw [hdf x hxF, hdp y (hInv.queueVis y (List.mem_cons_of_mem c hyr))]
      have := hrest_relc y hyr
      omega
    · rw [hdf x hxF, hdf y hyF]
      omega
  · -- optim
    intro v hv n hw
    rcases (hV'mem v).mp hv with hvF | hvV
    · rw [hdf v hvF]
      exact hInv.frontier v (hFsub v hvF).2 n hw c hheadc
    · rw [hdp v hvV]
      exact hInv.optim v hvV n hw
  · -- frontier
    intro u hu n hw h' hh'
    have huV : ¬ u ∈ V := fun h => hu ((hV'mem u).mpr (Or.inr h))
    have huF : ¬ u ∈ F := fun h => hu ((hV'mem u).mpr (Or.inl h))
    have hn1 : pdepth par c + 1 ≤ n := hInv.frontier u huV n hw c hheadc
    have hh'Q : h' ∈ Q' := head?_mem hh'
    have hh'le : pdepth par' h' ≤ pdepth par c + 1 := by
      rcases (hQ'mem h').mp hh'Q with h | h
      · rw [hdp h' (hInv.queueVis h' (List.mem_cons_of_mem c h))]
        exact hInv.window h' (List.mem_cons_of_mem c h) c hcQ
      · rw [hdf h' h]
    by_cases hcase : pdepth par' h' + 1 ≤ n
    · exact hcase
    · exfalso
      -- then n = D + 1 and the head already has depth D + 1
      have hn : n = pdepth par c + 1 := by omega
      have hh'D : pdepth par' h' = pdepth par c + 1 := by omega
      -- head-minimality of the sorted new queue
      have hminQ' : ∀ y, y ∈ Q' → pdepth par' h' ≤ pdepth par' y :=
        pairwise_head_min hsorted' hh' (Nat.le_refl _)
      -- decompose the walk at its last edge
      rw [hn] at hw
      obtain ⟨x, hxwalk, hxu⟩ := walkN_snoc_inv hw
      have hxV : x ∈ V := by
        by_contra hxV
        have := hInv.frontier x hxV (pdepth par c) hxwalk c hheadc
        omega
      have hxd : pdepth par x ≤ pdepth par c := hInv.optim x hxV (pdepth par c) hxwalk
      have hxQ' : ¬ x ∈ Q' := by
        intro hxQ'
        have h1 := hminQ' x hxQ'
        rw [hdp x hxV] at h1
        omega
      have hxV' : x ∈ V' := (hV'mem x).mpr (Or.inr hxV)
      have := hprocClosed' x hxV' hxQ' u (mem_neighbors.mpr hxu)
      exact hu this
  · -- procHead
    intro v hv hvq h' hh'
    have hh'Q : h' ∈ Q' := head?_mem hh'
    have hDh' : pdepth par c ≤ pdepth par' h' := by
      rcases (hQ'mem h').mp hh'Q with h | h
      · rw [hdp h' (hInv.queueVis h' (List.mem_cons_of_mem c h))]
        exact hrest_relc h' h
      · rw [hdf h' h]
        omega
    rcases (hV'mem v).mp hv with hvF | hvV
    · exact absurd ((hQ'mem v).mpr (Or.inr hvF)) hvq
    · by_cases hvc : v = c
      · subst hvc
        rw [hdp v hcV]
        exact hDh'
      · have hvrest : ¬ v ∈ rest := fun h => hvq ((hQ'mem v).mpr (Or.inl h))
        have hvQ : ¬ v ∈ c :: rest := by
          intro h
          rcases List.mem_cons.mp h with h' | h'
          · exact hvc h'
          · exact hvrest h'
        rw [hdp v hvV]
        exact Nat.le_trans (hInv.procHead v hvV hvQ c hheadc) hDh'

/-- Main BFS lemma: whenever the loop returns a path, it is a genuine FRIEND
path from the source to the target with the minimum number of edges. -/
theorem bfsLoop_sound (g : SocialNetwork) {s t : String} :
    ∀ (fuel : Nat) (Q V : List String) (par : List (String × String)),
      BfsInv g s Q V par →
      ∀ p, bfsLoop g s t fuel Q V par = some p →
        p.head? = some s ∧ p.getLast? = some t ∧
        List.Chain' (fun x y => (x, y) ∈ g.edges) p ∧
        ∀ n, WalkN g s t n → p.length ≤ n + 1 := by
  intro fuel
  induction fuel with
  | zero => intro Q V par _ p h; exact Option.noConfusion h
  | succ fuel ih =>
    intro Q V par hInv p h
    match Q with
    | [] => exact Option.noConfusion h
    | c :: rest =>
      have hunf : bfsLoop g s t (fuel + 1) (c :: rest) V par =
          if c = t then some (reconstructPath par s c)
          else bfsLoop g s t fuel
            ((neighbors g c).foldl (bfsStep c) (V, par, rest)).2.2
            ((neighbors g c).foldl (bfsStep c) (V, par, rest)).1
            ((neighbors g c).foldl (bfsStep c) (V, par, rest)).2.1 := rfl
      rw [hunf] at h
      by_cases hct : c = t
      · rw [if_pos hct] at h
        injection h with hp
        subst hct
        have hcV : c ∈ V := hInv.queueVis c (List.mem_cons_self c rest)
        have hchain : ChainLen par c (pdepth par c) := chainLen_pdepth hInv.parOk c
        have hcok := hInv.visKeyed c hcV
        obtain ⟨h1, h2, h3, h4⟩ :=
          recon_spec hInv.parOk hInv.parEdge (pdepth par c) c hchain hcok
        subst hp
        refine ⟨h1, h2, h3, ?_⟩
        intro n hw
        have := hInv.optim c hcV n hw
        omega
      · rw [if_neg hct] at h
        have h' : bfsLoop g s t fuel
            (rest ++ freshList V (neighbors g c))
            ((freshList V (neighbors g c)).reverse ++ V)
            ((freshList V (neighbors g c)).reverse.map (fun w => (w, c)) ++ par)
            = some p := by
          rw [bfsFold_eq c (neighbors g c) V par rest] at h
          exact h
        exact ih _ _ _ (bfsInv_step hInv) p h'

/-- Claim C4: every path returned by `shortest_path` starts at the source,
ends at the target, follows FRIEND edges, and has the minimum length among
all FRIEND paths between the two. -/
theorem claim_C4_shortest_path_optimal (g : SocialNetwork) (a b : String)
    (p : List String) (h : shortest_path g a b = some p) :
    isPathList g a b p ∧ ∀ q, isPathList g a b q → p.length ≤ q.length := by
  obtain ⟨h1, h2, h3, h4⟩ :=
    bfsLoop_sound g (g.edges.length + 2) [a] [a] [] (bfsInv_init g a) p h
  refine ⟨⟨h1, h2, h3⟩, ?_⟩
  rintro q ⟨hq1, hq2, hq3⟩
  have hwalk : WalkN g a b (q.length - 1) := walkN_of_pathList q a b hq1 hq2 hq3
  have hlen : 1 ≤ q.length := by
    cases q with
    | nil => cases hq1
    | cons _ _ => simp
  have := h4 (q.length - 1) hwalk
  omega

/-- Witness for C4: on the path graph A–B–C–D, `shortest_path A D` returns
[A, B, C, D], which the theorem certifies as a true shortest FRIEND path. -/
theorem claim_C4_witness :
    shortest_path gPath "A" "D" = some ["A", "B", "C", "D"] ∧
    isPathList gPath "A" "D" ["A", "B", "C", "D"] := by
  refine ⟨by decide, ?_⟩
  exact (claim_C4_shortest_path_optimal gPath "A" "D" ["A", "B", "C", "D"] (by decide)).1

/-- Counterexample to claim C3 as stated: with source = target = X unknown,
`shortest_path` returns the path [X], not None, although X is not a node. -/
theorem claim_C3_counterexample :
    ¬ "X" ∈ emptyNet.nodes ∧ shortest_path emptyNet "X" "X" = some ["X"] := by decide

/-- Claim C3 (amended): for distinct source and target in a well-formed
graph, `shortest_path` returns None (and, being a total function, never
raises) whenever the target is unreachable from the source or either
endpoint is not a node; when source = target the single-element path is
returned even for an unknown name. -/
theorem claim_C3_not_found (g : SocialNetwork) (a b : String) (hab : ¬ a = b)
    (hwf : wellFormed g)
    (h : (¬ ∃ p, isPathList g a b p) ∨ ¬ a ∈ g.nodes ∨ ¬ b ∈ g.nodes) :
    shortest_path g a b = none := by
  cases hres : shortest_path g a b with
  | none => rfl
  | some p =>
    exfalso
    obtain ⟨h1, h2, h3, -⟩ :=
      bfsLoop_sound g (g.edges.length + 2) [a] [a] [] (bfsInv_init g a) p hres
    have hpath : isPathList g a b p := ⟨h1, h2, h3⟩
    have hwalk : WalkN g a b (p.length - 1) := walkN_of_pathList p a b h1 h2 h3
    obtain ⟨m, hm⟩ : ∃ m, p.length - 1 = m + 1 := by
      cases hlen : p.length - 1 with
      | zero =>
        rw [hlen] at hwalk
        exact absurd (walkN_zero hwalk) hab
      | succ m => exact ⟨m, rfl⟩
    rw [hm] at hwalk
    rcases h with hreach | ha | hb
    · exact hreach ⟨p, hpath⟩
    · obtain ⟨x, hx⟩ := walkN_first_edge hwalk
      exact ha (hwf (a, x) hx).1
    · obtain ⟨x, hxw, hx⟩ := walkN_snoc_inv hwalk
      exact hb (hwf (x, b) hx).2

/-- Witness for C3: querying the unknown target Z on the path graph. -/
theorem claim_C3_witness :
    wellFormed gPath ∧ ¬ "Z" ∈ gPath.nodes ∧
    shortest_path gPath "A" "Z" = none := by
  have hwf : wellFormed gPath := by
    show ∀ e ∈ gPath.edges, e.1 ∈ gPath.nodes ∧ e.2 ∈ gPath.nodes
    decide
  refine ⟨hwf, by decide, ?_⟩
  exact claim_C3_not_found gPath "A" "Z" (by decide) hwf
    (Or.inr (Or.inr (by decide)))

end SocialNetworks
